import Mathlib

set_option autoImplicit false
set_option maxRecDepth 100000

/-!
# DebugLocEntry: entries of the `.debug_loc` list

A shallow embedding of `lib/CodeGen/AsmPrinter/DebugLocEntry.h`.

* Pointers (`const MCSymbol *`, `const ConstantFP *`, `const ConstantInt *`) are
  addresses, natural numbers compared by identity; `nullptr` is address `0`.
* A member function that mutates `*this` takes the entry and returns the new
  entry next to its result.
* `assert` aborts the program unless `NDEBUG` is defined; a member function
  that runs one returns `Option`, `none` standing for the abort.
* `std::sort` belongs to the C++ library. The member functions take it as a
  parameter `S : StdSort`, any function with the two properties the C++
  standard promises (a permutation of the input, sorted under `operator<`); the
  order of values tied on the piece offset is left open. The facts below hold
  for every such `S`. One implementation, `libstdcxx`, is modelled in full
  (namespace `std`); the closed statements are evaluated with it.
-/

/-! ## `std::sort` of libstdc++

Modelled from the C++ library: the algorithm behind `std::sort` in libstdc++
(`bits/stl_algo.h`, `bits/stl_heap.h`), which is not part of the sources at
hand. A range is the list with two positions `first` and `last`; a loop is a
function recursing on a bound of its number of iterations. -/

namespace std

/-- `comp(i, j)` on two iterators: the comparison of the elements they point to. -/
def compAt {α : Type} (comp : α → α → Bool) (l : List α) (i j : Nat) : Bool :=
  match l[i]?, l[j]? with
  | some a, some b => comp a b
  | _, _ => false

/-- `*dst = std::move(*src)`. -/
def moveAt {α : Type} (l : List α) (dst src : Nat) : List α :=
  match l[src]? with
  | some a => l.set dst a
  | none => l

/-- `std::iter_swap`. -/
def iter_swap {α : Type} (l : List α) (i j : Nat) : List α :=
  match l[i]?, l[j]? with
  | some a, some b => (l.set i b).set j a
  | _, _ => l

/-- The loop of `std::__lg`. -/
def lgLoop : Nat → Nat → Nat
  | 0, _ => 0
  | fuel + 1, n => if 2 ≤ n then lgLoop fuel (n / 2) + 1 else 0

/-- `std::__lg`: the position of the highest set bit. -/
def lg (n : Nat) : Nat := lgLoop n n

/-- `std::__move_median_to_first`. -/
def move_median_to_first {α : Type} (comp : α → α → Bool) (l : List α)
    (result a b c : Nat) : List α :=
  if compAt comp l a b then
    if compAt comp l b c then iter_swap l result b
    else if compAt comp l a c then iter_swap l result c
    else iter_swap l result a
  else if compAt comp l a c then iter_swap l result a
  else if compAt comp l b c then iter_swap l result c
  else iter_swap l result b

/-- The loop of `std::__unguarded_linear_insert`, `val` being the value taken
out of the position `last` at the start. -/
def unguarded_linear_insert_loop {α : Type} (comp : α → α → Bool) (val : α) :
    List α → Nat → List α
  | l, 0 => l.set 0 val
  | l, next + 1 =>
    match l[next]? with
    | some n =>
      if comp val n then unguarded_linear_insert_loop comp val (l.set (next + 1) n) next
      else l.set (next + 1) val
    | none => l.set (next + 1) val

/-- `std::__unguarded_linear_insert`. -/
def unguarded_linear_insert {α : Type} (comp : α → α → Bool) (l : List α) (last : Nat) :
    List α :=
  match l[last]? with
  | some val => unguarded_linear_insert_loop comp val l last
  | none => l

/-- The body of the loop of `std::__insertion_sort` at the position `i`. -/
def insertion_sort_step {α : Type} (comp : α → α → Bool) (l : List α) (first i : Nat) :
    List α :=
  if compAt comp l i first then
    match l[i]? with
    | some val =>
      l.take first ++ val :: ((l.drop first).take (i - first) ++ l.drop (i + 1))
    | none => l
  else unguarded_linear_insert comp l i

/-- The loop of `std::__insertion_sort`, from the position `i` on, `n` positions
being left. -/
def insertion_sort_loop {α : Type} (comp : α → α → Bool) (first : Nat) :
    Nat → List α → Nat → List α
  | 0, l, _ => l
  | n + 1, l, i => insertion_sort_loop comp first n (insertion_sort_step comp l first i) (i + 1)

/-- `std::__insertion_sort`. -/
def insertion_sort {α : Type} (comp : α → α → Bool) (l : List α) (first last : Nat) : List α :=
  if first = last then l
  else insertion_sort_loop comp first (last - (first + 1)) l (first + 1)

/-- The loop of `std::__unguarded_insertion_sort`. -/
def unguarded_insertion_sort_loop {α : Type} (comp : α → α → Bool) :
    Nat → List α → Nat → List α
  | 0, l, _ => l
  | n + 1, l, i => unguarded_insertion_sort_loop comp n (unguarded_linear_insert comp l i) (i + 1)

/-- `std::__unguarded_insertion_sort`. -/
def unguarded_insertion_sort {α : Type} (comp : α → α → Bool) (l : List α)
    (first last : Nat) : List α :=
  unguarded_insertion_sort_loop comp (last - first) l first

/-- `_S_threshold`. -/
def S_threshold : Nat := 16

/-- `std::__final_insertion_sort`. -/
def final_insertion_sort {α : Type} (comp : α → α → Bool) (l : List α) (first last : Nat) :
    List α :=
  if last - first > S_threshold then
    unguarded_insertion_sort comp (insertion_sort comp l first (first + S_threshold))
      (first + S_threshold) last
  else insertion_sort comp l first last

/-- The loop `while (comp(first, pivot)) ++first` of `std::__unguarded_partition`. -/
def partition_up {α : Type} (comp : α → α → Bool) (l : List α) (pivot : Nat) :
    Nat → Nat → Nat
  | 0, first => first
  | fuel + 1, first =>
    if compAt comp l first pivot then partition_up comp l pivot fuel (first + 1) else first

/-- The loop `while (comp(pivot, last)) --last` of `std::__unguarded_partition`. -/
def partition_down {α : Type} (comp : α → α → Bool) (l : List α) (pivot : Nat) :
    Nat → Nat → Nat
  | 0, last => last
  | fuel + 1, last =>
    if compAt comp l pivot last then partition_down comp l pivot fuel (last - 1) else last

/-- `std::__unguarded_partition`: the list afterwards and the iterator returned. -/
def unguarded_partition {α : Type} (comp : α → α → Bool) (pivot : Nat) :
    Nat → List α → Nat → Nat → List α × Nat
  | 0, l, first, _ => (l, first)
  | fuel + 1, l, first, last =>
    let first1 := partition_up comp l pivot l.length first
    let last1 := partition_down comp l pivot l.length (last - 1)
    if first1 < last1 then
      unguarded_partition comp pivot fuel (iter_swap l first1 last1) (first1 + 1) last1
    else (l, first1)

/-- `std::__unguarded_partition_pivot`. -/
def unguarded_partition_pivot {α : Type} (comp : α → α → Bool) (l : List α)
    (first last : Nat) : List α × Nat :=
  let mid := first + (last - first) / 2
  let l1 := move_median_to_first comp l first (first + 1) mid (last - 1)
  unguarded_partition comp first l1.length l1 (first + 1) last

/-- The loop of `std::__push_heap`. -/
def push_heap_loop {α : Type} (comp : α → α → Bool) (first topIndex : Nat) (value : α) :
    Nat → List α → Nat → List α
  | 0, l, holeIndex => l.set (first + holeIndex) value
  | fuel + 1, l, holeIndex =>
    let parent := (holeIndex - 1) / 2
    match l[first + parent]? with
    | some p =>
      if holeIndex > topIndex ∧ comp p value then
        push_heap_loop comp first topIndex value fuel (l.set (first + holeIndex) p) parent
      else l.set (first + holeIndex) value
    | none => l.set (first + holeIndex) value

/-- `std::__push_heap`. -/
def push_heap {α : Type} (comp : α → α → Bool) (l : List α) (first holeIndex topIndex : Nat)
    (value : α) : List α :=
  push_heap_loop comp first topIndex value (holeIndex + 1) l holeIndex

/-- The loop of `std::__adjust_heap`: the list, the hole and the second child
when it ends. -/
def adjust_heap_loop {α : Type} (comp : α → α → Bool) (first len : Nat) :
    Nat → List α → Nat → Nat → List α × Nat × Nat
  | 0, l, holeIndex, secondChild => (l, holeIndex, secondChild)
  | fuel + 1, l, holeIndex, secondChild =>
    if secondChild < (len - 1) / 2 then
      let sc := 2 * (secondChild + 1)
      let sc1 := if compAt comp l (first + sc) (first + (sc - 1)) then sc - 1 else sc
      adjust_heap_loop comp first len fuel (moveAt l (first + holeIndex) (first + sc1)) sc1 sc1
    else (l, holeIndex, secondChild)

/-- `std::__adjust_heap`. -/
def adjust_heap {α : Type} (comp : α → α → Bool) (l : List α) (first holeIndex len : Nat)
    (value : α) : List α :=
  let topIndex := holeIndex
  let (l1, hole1, sc1) := adjust_heap_loop comp first len len l holeIndex holeIndex
  if len % 2 = 0 ∧ sc1 = (len - 2) / 2 then
    let sc2 := 2 * (sc1 + 1)
    push_heap comp (moveAt l1 (first + hole1) (first + (sc2 - 1))) first (sc2 - 1) topIndex value
  else push_heap comp l1 first hole1 topIndex value

/-- `std::__pop_heap`. -/
def pop_heap {α : Type} (comp : α → α → Bool) (l : List α) (first last result : Nat) :
    List α :=
  match l[result]? with
  | some value => adjust_heap comp (moveAt l result first) first 0 (last - first) value
  | none => l

/-- The loop of `std::__make_heap`, from the parent `parent` down to 0. -/
def make_heap_loop {α : Type} (comp : α → α → Bool) (first len : Nat) :
    List α → Nat → List α
  | l, 0 =>
    match l[first]? with
    | some value => adjust_heap comp l first 0 len value
    | none => l
  | l, parent + 1 =>
    match l[first + (parent + 1)]? with
    | some value => make_heap_loop comp first len (adjust_heap comp l first (parent + 1) len value) parent
    | none => l

/-- `std::__make_heap`. -/
def make_heap {α : Type} (comp : α → α → Bool) (l : List α) (first last : Nat) : List α :=
  if last - first < 2 then l
  else make_heap_loop comp first (last - first) l ((last - first - 2) / 2)

/-- The loop of `std::__heap_select` over the positions from `i` on. -/
def heap_select_loop {α : Type} (comp : α → α → Bool) (first middle : Nat) :
    Nat → List α → Nat → List α
  | 0, l, _ => l
  | n + 1, l, i =>
    heap_select_loop comp first middle n
      (if compAt comp l i first then pop_heap comp l first middle i else l) (i + 1)

/-- `std::__heap_select`. -/
def heap_select {α : Type} (comp : α → α → Bool) (l : List α) (first middle last : Nat) :
    List α :=
  heap_select_loop comp first middle (last - middle) (make_heap comp l first middle) middle

/-- The loop of `std::__sort_heap`. -/
def sort_heap_loop {α : Type} (comp : α → α → Bool) (first : Nat) :
    Nat → List α → Nat → List α
  | 0, l, _ => l
  | fuel + 1, l, last =>
    if last - first > 1 then
      sort_heap_loop comp first fuel (pop_heap comp l first (last - 1) (last - 1)) (last - 1)
    else l

/-- `std::__sort_heap`. -/
def sort_heap {α : Type} (comp : α → α → Bool) (l : List α) (first last : Nat) : List α :=
  sort_heap_loop comp first (last - first) l last

/-- `std::__partial_sort`. -/
def partial_sort {α : Type} (comp : α → α → Bool) (l : List α) (first middle last : Nat) :
    List α :=
  sort_heap comp (heap_select comp l first middle last) first middle

/-- `std::__introsort_loop`; `fuel` bounds the number of passes through the
loop and of nested calls, each of which shortens the range. -/
def introsort_loop {α : Type} (comp : α → α → Bool) :
    Nat → List α → Nat → Nat → Nat → List α
  | 0, l, _, _, _ => l
  | fuel + 1, l, first, last, depth_limit =>
    if last - first > S_threshold then
      if depth_limit = 0 then partial_sort comp l first last last
      else
        let (l1, cut) := unguarded_partition_pivot comp l first last
        let l2 := introsort_loop comp fuel l1 cut last (depth_limit - 1)
        introsort_loop comp fuel l2 first cut (depth_limit - 1)
    else l

/-- `std::__sort` on the whole list. -/
def sort {α : Type} (comp : α → α → Bool) (l : List α) : List α :=
  if l.length = 0 then l
  else
    final_insertion_sort comp
      (introsort_loop comp l.length l 0 l.length (lg l.length * 2)) 0 l.length

end std

namespace llvm

/-- Address of an object that is only ever compared by identity. -/
abbrev Ptr := Nat

/-- The null pointer. -/
def nullptr : Ptr := 0

/-- Modelled from the spec: `MachineLocation` (llvm/MC/MachineLocation.h) is not
part of the sources at hand; the spec describes it as a description of a machine
location that is compared for equality only and whose structure is never
interpreted. -/
structure MachineLocation where
  Descriptor : Nat
  deriving DecidableEq

/-- Modelled from the spec: the variable descriptor behind `const MDNode *` and
its wrapper `DIVariable` (llvm/IR/DebugInfo.h) are not part of the sources at
hand; the spec describes a handle with a name, a piece offset and an "is a
piece" flag. -/
structure MDNode where
  Name : String
  IsPiece : Bool
  PieceOffset : Nat
  deriving DecidableEq

namespace DIVariable

/-- Modelled from the spec: the name of the variable. -/
def getName (Var : MDNode) : String := Var.Name

/-- Modelled from the spec: the flag saying that the descriptor is a piece of a
split variable. -/
def isVariablePiece (Var : MDNode) : Bool := Var.IsPiece

/-- Modelled from the spec: the offset of the piece within the full variable,
`0` if the variable is not split. -/
def getPieceOffset (Var : MDNode) : Nat :=
  if Var.IsPiece then Var.PieceOffset else 0

end DIVariable

/-- The `assert` of `<cassert>`: nothing when `NDEBUG` is defined, otherwise a
false condition aborts the program (`none`). -/
def assert (NDEBUG : Bool) (cond : Bool) : Option Unit :=
  if NDEBUG || cond then some () else none

namespace DebugLocEntry

/-- Type of entry that a `Value` represents. -/
inductive EntryType where
  | E_Location
  | E_Integer
  | E_ConstantFP
  | E_ConstantInt
  deriving DecidableEq

/-- A single location or constant. The union `Constant` is kept as its three
members; only the member selected by `EntryKind` is ever read. -/
structure Value where
  Variable : MDNode
  EntryKind : EntryType
  Constant_Int : Int
  Constant_CFP : Ptr
  Constant_CIP : Ptr
  Loc : MachineLocation
  deriving DecidableEq

namespace Value

/-- Constructor `Value(const MDNode *Var, int64_t i)`. -/
def ofInt (Var : MDNode) (i : Int) : Value :=
  { Variable := Var, EntryKind := .E_Integer, Constant_Int := i,
    Constant_CFP := nullptr, Constant_CIP := nullptr, Loc := ⟨0⟩ }

/-- Constructor `Value(const MDNode *Var, const ConstantFP *CFP)`. -/
def ofConstantFP (Var : MDNode) (CFP : Ptr) : Value :=
  { Variable := Var, EntryKind := .E_ConstantFP, Constant_Int := 0,
    Constant_CFP := CFP, Constant_CIP := nullptr, Loc := ⟨0⟩ }

/-- Constructor `Value(const MDNode *Var, const ConstantInt *CIP)`. -/
def ofConstantInt (Var : MDNode) (CIP : Ptr) : Value :=
  { Variable := Var, EntryKind := .E_ConstantInt, Constant_Int := 0,
    Constant_CFP := nullptr, Constant_CIP := CIP, Loc := ⟨0⟩ }

/-- Constructor `Value(const MDNode *Var, MachineLocation Loc)`. -/
def ofLoc (Var : MDNode) (Loc : MachineLocation) : Value :=
  { Variable := Var, EntryKind := .E_Location, Constant_Int := 0,
    Constant_CFP := nullptr, Constant_CIP := nullptr, Loc := Loc }

/-- The member `operator==`. -/
def eq (self other : Value) : Bool :=
  if self.EntryKind ≠ other.EntryKind then false
  else
    match self.EntryKind with
    | .E_Location => decide (self.Loc = other.Loc)
    | .E_Integer => decide (self.Constant_Int = other.Constant_Int)
    | .E_ConstantFP => decide (self.Constant_CFP = other.Constant_CFP)
    | .E_ConstantInt => decide (self.Constant_CIP = other.Constant_CIP)

/-- The member `operator<`: compare two pieces based on their offset. -/
def lt (self other : Value) : Bool :=
  decide (DIVariable.getPieceOffset self.Variable < DIVariable.getPieceOffset other.Variable)

end Value

end DebugLocEntry

/-- This struct describes location entries emitted in the `.debug_loc` section:
begin and end symbols of the address range, and the list of locations/constants
belonging to the entry. -/
structure DebugLocEntry where
  Begin : Ptr
  End : Ptr
  Values : List DebugLocEntry.Value
  deriving DecidableEq

namespace DebugLocEntry

/-- What the C++ standard promises of `std::sort` with `operator<`: the range
afterwards is a permutation of the range before, and no element of it is less
than an element in front of it. The order of elements of which none is less
than the other is not specified. -/
structure StdSort where
  sort : List Value → List Value
  perm : ∀ Vs : List Value, (sort Vs).Perm Vs
  sorted : ∀ Vs : List Value, (sort Vs).Pairwise fun a b => Value.lt b a = false

/-- An algorithm taken as an implementation of `std::sort`: its result, which
is a sorted permutation of the input when the algorithm is correct; were it
not, the input sorted by insertion. -/
def StdSort.ofAlgorithm (f : List Value → List Value) : StdSort where
  sort Vs :=
    if (f Vs).Perm Vs ∧ (f Vs).Pairwise (fun a b => Value.lt b a = false) then f Vs
    else Vs.insertionSort (fun a b => Value.lt b a = false)
  perm Vs := by
    dsimp only
    split
    · rename_i h
      exact h.1
    · exact List.perm_insertionSort _ Vs
  sorted Vs := by
    dsimp only
    split
    · rename_i h
      exact h.2
    · have : IsTotal Value (fun a b => Value.lt b a = false) :=
        ⟨fun a b => by
          simp only [Value.lt, decide_eq_false_iff_not]
          omega⟩
      have : IsTrans Value (fun a b => Value.lt b a = false) :=
        ⟨fun a b c => by
          simp only [Value.lt, decide_eq_false_iff_not]
          omega⟩
      exact List.sorted_insertionSort _ Vs

/-- The `std::sort` of libstdc++ with `Value::operator<`. -/
def libstdcxx : StdSort := StdSort.ofAlgorithm (std.sort Value.lt)

/-- The loop of `std::unique` with `operator==`: `Kept` is the last element
written to the output; an element equal to it is skipped, any other is written
and becomes the last one. -/
def uniqueFrom (Kept : Value) : List Value → List Value
  | [] => []
  | V :: Vs => if Value.eq Kept V then uniqueFrom Kept Vs else V :: uniqueFrom V Vs

/-- The elements `std::unique` leaves in front of the iterator it returns, which
are what remains after `Values.erase(std::unique(...), Values.end())`. -/
def unique : List Value → List Value
  | [] => []
  | V :: Vs => V :: uniqueFrom V Vs

/-- The default constructor `DebugLocEntry()`. -/
def default : DebugLocEntry :=
  { Begin := nullptr, End := nullptr, Values := [] }

/-- The constructor `DebugLocEntry(const MCSymbol *B, const MCSymbol *E, Value Val)`. -/
def Construct (B E : Ptr) (Val : Value) : DebugLocEntry :=
  { Begin := B, End := E, Values := [] ++ [Val] }

/-- The member `sortUniqueValues`: sort the pieces by offset, then erase what
`std::unique` leaves behind. -/
def sortUniqueValues (S : StdSort) (self : DebugLocEntry) : DebugLocEntry :=
  { self with Values := unique (S.sort self.Values) }

/-- The member `addValues`: append, sort and deduplicate, then assert that
every value is a piece. -/
def addValues (NDEBUG : Bool) (S : StdSort) (self : DebugLocEntry) (Vals : List Value) :
    Option DebugLocEntry :=
  let self1 := { self with Values := self.Values ++ Vals }
  let self2 := sortUniqueValues S self1
  (assert NDEBUG (self2.Values.all fun V => DIVariable.isVariablePiece V.Variable)).map
    fun _ => self2

/-- The member `MergeValues`: the returned flag and the entry afterwards. -/
def MergeValues (NDEBUG : Bool) (S : StdSort) (self Next : DebugLocEntry) :
    Option (Bool × DebugLocEntry) :=
  if self.Begin = Next.Begin ∧ self.Values.length > 0 ∧ Next.Values.length > 0 then
    match self.Values.head?, Next.Values.head? with
    | some V0, some N0 =>
      if DIVariable.getName V0.Variable = DIVariable.getName N0.Variable ∧
          DIVariable.isVariablePiece V0.Variable = true ∧
          DIVariable.isVariablePiece N0.Variable = true then
        (addValues NDEBUG S self Next.Values).map fun self1 =>
          (true, { self1 with End := Next.End })
      else some (false, self)
    | _, _ => some (false, self)
  else some (false, self)

/-- The `operator==` of `SmallVector`: equal sizes and `std::equal` over the
elements with `Value::operator==`. -/
def valuesEq : List Value → List Value → Bool
  | [], [] => true
  | V :: Vs, W :: Ws => Value.eq V W && valuesEq Vs Ws
  | _, _ => false

/-- The member `MergeRanges`: the returned flag and the entry afterwards. -/
def MergeRanges (self Next : DebugLocEntry) : Bool × DebugLocEntry :=
  if self.End = Next.Begin ∧ valuesEq self.Values Next.Values = true then
    (true, { self with End := Next.End })
  else (false, self)

/-- The entries a program can hold: `Values` is private, so an entry comes from
a constructor followed by calls of the public member functions that returned. -/
inductive Reachable (NDEBUG : Bool) (S : StdSort) : DebugLocEntry → Prop where
  | default : Reachable NDEBUG S DebugLocEntry.default
  | construct (B E : Ptr) (Val : Value) : Reachable NDEBUG S (Construct B E Val)
  | sortUniqueValues {A : DebugLocEntry} :
      Reachable NDEBUG S A → Reachable NDEBUG S (sortUniqueValues S A)
  | addValues {A A1 : DebugLocEntry} (Vals : List Value) :
      Reachable NDEBUG S A → addValues NDEBUG S A Vals = some A1 → Reachable NDEBUG S A1
  | mergeValues {A B A1 : DebugLocEntry} {r : Bool} :
      Reachable NDEBUG S A → Reachable NDEBUG S B →
      MergeValues NDEBUG S A B = some (r, A1) → Reachable NDEBUG S A1
  | mergeRanges {A B : DebugLocEntry} :
      Reachable NDEBUG S A → Reachable NDEBUG S B → Reachable NDEBUG S (MergeRanges A B).2

/-- The sort key read by `operator<`: the piece offset of the value's variable. -/
def Value.offset (V : Value) : Nat := DIVariable.getPieceOffset V.Variable

/-- The condition of the `assert` in `addValues`, as a proposition: every value
of the list belongs to a variable that is a piece. -/
def AllPieces (Vs : List Value) : Prop :=
  ∀ V ∈ Vs, DIVariable.isVariablePiece V.Variable = true

/-- A piece of the variable `x` at offset 0. -/
def pieceX0 : MDNode := { Name := "x", IsPiece := true, PieceOffset := 0 }

/-- A piece of the variable `x` at offset 4. -/
def pieceX4 : MDNode := { Name := "x", IsPiece := true, PieceOffset := 4 }

/-- A piece of the variable `x` at offset 8. -/
def pieceX8 : MDNode := { Name := "x", IsPiece := true, PieceOffset := 8 }

/-- The insertion loop of a caller: one `addValues` call per value of the list,
each with that value as a singleton, in the order of the list. -/
def addSingletons (NDEBUG : Bool) (S : StdSort) (A : DebugLocEntry) : List Value → Option DebugLocEntry
  | [] => some A
  | V :: Vs => (addValues NDEBUG S A [V]).bind fun A1 => addSingletons NDEBUG S A1 Vs

/-- A variable `y` that is not split. -/
def wholeY : MDNode := { Name := "y", IsPiece := false, PieceOffset := 0 }

/-- The entries obtained from the three-argument constructor by calls of
`MergeValues` and `MergeRanges` that returned, the arguments of these calls
being entries obtained in the same way. -/
inductive MergeReachable (NDEBUG : Bool) (S : StdSort) : DebugLocEntry → Prop where
  | construct (B E : Ptr) (Val : Value) : MergeReachable NDEBUG S (Construct B E Val)
  | mergeValues {A B A1 : DebugLocEntry} {r : Bool} :
      MergeReachable NDEBUG S A → MergeReachable NDEBUG S B →
      MergeValues NDEBUG S A B = some (r, A1) → MergeReachable NDEBUG S A1
  | mergeRanges {A B : DebugLocEntry} :
      MergeReachable NDEBUG S A → MergeReachable NDEBUG S B →
      MergeReachable NDEBUG S (MergeRanges A B).2

/-- The entries whose life started in the three-argument constructor: what the
public member functions that returned have made of such an entry, whatever the
arguments passed to them. -/
inductive Constructed (NDEBUG : Bool) (S : StdSort) : DebugLocEntry → Prop where
  | construct (B E : Ptr) (Val : Value) : Constructed NDEBUG S (Construct B E Val)
  | sortUniqueValues {A : DebugLocEntry} :
      Constructed NDEBUG S A → Constructed NDEBUG S (sortUniqueValues S A)
  | addValues {A A1 : DebugLocEntry} (Vals : List Value) :
      Constructed NDEBUG S A → addValues NDEBUG S A Vals = some A1 → Constructed NDEBUG S A1
  | mergeValues {A A1 : DebugLocEntry} (B : DebugLocEntry) {r : Bool} :
      Constructed NDEBUG S A → MergeValues NDEBUG S A B = some (r, A1) → Constructed NDEBUG S A1
  | mergeRanges {A : DebugLocEntry} (B : DebugLocEntry) :
      Constructed NDEBUG S A → Constructed NDEBUG S (MergeRanges A B).2

/-- The entry that merging the entries of the pieces of `x` at offsets 0 and 4,
holding the integers 0 and 1, leaves. -/
def mergedX04 : DebugLocEntry :=
  { Begin := 1, End := 3, Values := [Value.ofInt pieceX0 0, Value.ofInt pieceX4 1] }

/-- The entry that merging the entries of the pieces of `x` at offsets 0 and 4,
both holding the integer 0, leaves. -/
def mergedX0 : DebugLocEntry :=
  { Begin := 1, End := 3, Values := [Value.ofInt pieceX0 0] }

/-- The entry that adding a value for offset 0 of `x` holding the integer 0 to
the entry of the piece at offset 4 holding the same integer leaves. -/
def addedX0 : DebugLocEntry :=
  { Begin := 1, End := 2, Values := [Value.ofInt pieceX0 0] }

/-- Values for offset 0 of `x` holding the given integers, in their order. -/
def valuesAtX0 (Ints : List Int) : List Value := Ints.map (Value.ofInt pieceX0)

/-- The integers held by the values of a list, in their order. -/
def intsOf (Vs : List Value) : List Int := Vs.map fun V => V.Constant_Int

/-- An entry holding 17 values for offset 0 of `x`, the integers 0 to 16. -/
def tied17 : DebugLocEntry :=
  { Begin := 1, End := 2,
    Values := valuesAtX0 [0, 1, 2, 3, 4, 5, 6, 7, 8, 9, 10, 11, 12, 13, 14, 15, 16] }

/-- The entry that `addValues` leaves, with libstdc++, when the values for
offset 0 of `x` holding 1, 2, 3, 4, 5, 6, 7, 8, 1, 10, 11, 12, 13, 14, 15, 16
are added to the entry constructed for the one holding 0. -/
def added17 : DebugLocEntry :=
  { Begin := 1, End := 2,
    Values := valuesAtX0 [8, 16, 15, 14, 13, 12, 11, 10, 1, 0, 7, 6, 5, 4, 3, 2, 1] }

/-- The entry that a further `addValues` of no value leaves of `added17`, with
libstdc++. -/
def shrunk16 : DebugLocEntry :=
  { Begin := 1, End := 2,
    Values := valuesAtX0 [1, 2, 3, 4, 5, 6, 7, 0, 8, 10, 11, 12, 13, 14, 15, 16] }

/-- An entry holding the values for the pieces of `x` at offsets 4, 8 and 0, the
integers 7, 5 and 7. -/
def mixed3 : DebugLocEntry :=
  { Begin := 1, End := 2,
    Values := [Value.ofInt pieceX4 7, Value.ofInt pieceX8 5, Value.ofInt pieceX0 7] }

/-! ## Auxiliary facts -/

theorem sort_perm (S : StdSort) (Vs : List Value) : (S.sort Vs).Perm Vs :=
  S.perm Vs

theorem sort_sorted (S : StdSort) (Vs : List Value) :
    (S.sort Vs).Pairwise (fun a b => Value.offset a ≤ Value.offset b) :=
  (S.sorted Vs).imp fun {a b} h => by
    simpa [Value.lt, Value.offset] using h

theorem strict_of_sorted_of_ne {L : List Value}
    (hs : L.Pairwise fun a b => Value.offset a ≤ Value.offset b)
    (hn : L.Pairwise fun a b => Value.offset a ≠ Value.offset b) :
    L.Pairwise fun a b => Value.offset a < Value.offset b :=
  (hs.and hn).imp fun hab => Nat.lt_of_le_of_ne hab.1 hab.2

theorem offsets_ne_perm {L M : List Value} (hp : L.Perm M)
    (hn : L.Pairwise fun a b => Value.offset a ≠ Value.offset b) :
    M.Pairwise fun a b => Value.offset a ≠ Value.offset b :=
  (hp.pairwise_iff (fun hab => Ne.symm hab)).mp hn

theorem sort_eq_of_strict (S : StdSort) {L M : List Value}
    (hL : L.Pairwise fun a b => Value.offset a < Value.offset b) (hp : M.Perm L) :
    S.sort M = L := by
  have hperm : (S.sort M).Perm L := (sort_perm S M).trans hp
  have hne : (S.sort M).Pairwise fun a b => Value.offset a ≠ Value.offset b :=
    offsets_ne_perm hperm.symm (hL.imp fun {a b} h => Nat.ne_of_lt h)
  have hlt := strict_of_sorted_of_ne (sort_sorted S M) hne
  have : IsAntisymm Value (fun a b => Value.offset a < Value.offset b) :=
    ⟨fun a b hab hba => absurd hab (Nat.lt_asymm hba)⟩
  exact List.eq_of_perm_of_sorted hperm hlt hL

theorem uniqueFrom_sublist (Kept : Value) (Vs : List Value) :
    (uniqueFrom Kept Vs).Sublist Vs := by
  induction Vs generalizing Kept with
  | nil => exact List.Sublist.slnil
  | cons V Vs ih =>
    unfold uniqueFrom
    split
    · exact (ih Kept).cons V
    · exact (ih V).cons₂ V

theorem unique_sublist (Vs : List Value) : (unique Vs).Sublist Vs := by
  cases Vs with
  | nil => exact List.Sublist.slnil
  | cons V Vs => exact (uniqueFrom_sublist V Vs).cons₂ V

theorem mem_of_mem_unique_sort {S : StdSort} {V : Value} {Vs : List Value}
    (h : V ∈ unique (S.sort Vs)) :
    V ∈ Vs :=
  (sort_perm S Vs).mem_iff.mp ((unique_sublist _).subset h)

theorem allPieces_unique_sort {S : StdSort} {Vs : List Value} (h : AllPieces Vs) :
    AllPieces (unique (S.sort Vs)) :=
  fun V hV => h V (mem_of_mem_unique_sort hV)

theorem addValues_eq_some (NDEBUG : Bool) (S : StdSort) (A : DebugLocEntry) (Vals : List Value)
    (h : NDEBUG = true ∨ AllPieces (A.Values ++ Vals)) :
    addValues NDEBUG S A Vals = some (sortUniqueValues S { A with Values := A.Values ++ Vals }) := by
  have hc : (NDEBUG || (sortUniqueValues S { A with Values := A.Values ++ Vals }).Values.all
      fun V => DIVariable.isVariablePiece V.Variable) = true := by
    rcases h with h | h
    · simp [h]
    · have := @allPieces_unique_sort S _ h
      simp only [Bool.or_eq_true, List.all_eq_true]
      exact Or.inr this
  simp only [addValues, assert, hc, if_true, Option.map_some']

theorem addValues_some_eq {NDEBUG : Bool} {S : StdSort} {A A1 : DebugLocEntry} {Vals : List Value}
    (h : addValues NDEBUG S A Vals = some A1) :
    A1 = sortUniqueValues S { A with Values := A.Values ++ Vals } ∧
      (NDEBUG = true ∨ AllPieces A1.Values) := by
  simp only [addValues, assert] at h
  split at h
  · rename_i hc
    simp only [Option.map_some', Option.some.injEq] at h
    subst h
    refine ⟨rfl, ?_⟩
    simp only [Bool.or_eq_true, List.all_eq_true] at hc
    exact hc
  · simp at h

theorem addValues_of_strict (NDEBUG : Bool) (S : StdSort) (A : DebugLocEntry)
    (Vals L : List Value) (hL : L.Pairwise fun a b => Value.offset a < Value.offset b)
    (hp : (A.Values ++ Vals).Perm L) (hall : NDEBUG = true ∨ AllPieces (A.Values ++ Vals)) :
    addValues NDEBUG S A Vals = some { A with Values := unique L } := by
  rw [addValues_eq_some NDEBUG S A Vals hall]
  simp only [sortUniqueValues, sort_eq_of_strict S hL hp]

theorem MergeValues_of_cond (NDEBUG : Bool) (S : StdSort) (A B : DebugLocEntry) (V0 N0 : Value)
    (hb : A.Begin = B.Begin) (hV : A.Values.head? = some V0) (hN : B.Values.head? = some N0)
    (hn : DIVariable.getName V0.Variable = DIVariable.getName N0.Variable)
    (hp : DIVariable.isVariablePiece V0.Variable = true)
    (hq : DIVariable.isVariablePiece N0.Variable = true) :
    MergeValues NDEBUG S A B =
      (addValues NDEBUG S A B.Values).map fun A1 => (true, { A1 with End := B.End }) := by
  have hA : A.Values.length > 0 := by
    cases hl : A.Values with
    | nil => simp [hl] at hV
    | cons _ _ => simp
  have hB : B.Values.length > 0 := by
    cases hl : B.Values with
    | nil => simp [hl] at hN
    | cons _ _ => simp
  simp only [MergeValues, hb, hA, hB, hV, hN, hn, hp, hq, and_self, if_true]

theorem MergeValues_of_not_cond (NDEBUG : Bool) (S : StdSort) (A B : DebugLocEntry)
    (h : ¬ (A.Begin = B.Begin ∧ ∃ V0 N0, A.Values.head? = some V0 ∧ B.Values.head? = some N0 ∧
      DIVariable.getName V0.Variable = DIVariable.getName N0.Variable ∧
      DIVariable.isVariablePiece V0.Variable = true ∧
      DIVariable.isVariablePiece N0.Variable = true)) :
    MergeValues NDEBUG S A B = some (false, A) := by
  unfold MergeValues
  split
  · rename_i h1
    split
    · rename_i V0 N0 hV hN
      split
      · rename_i h2
        exact absurd ⟨h1.1, V0, N0, hV, hN, h2⟩ h
      · rfl
    · rfl
  · rfl

theorem MergeValues_some_true {NDEBUG : Bool} {S : StdSort} {A B A1 : DebugLocEntry}
    (h : MergeValues NDEBUG S A B = some (true, A1)) :
    (A.Begin = B.Begin ∧ ∃ V0 N0, A.Values.head? = some V0 ∧ B.Values.head? = some N0 ∧
      DIVariable.getName V0.Variable = DIVariable.getName N0.Variable ∧
      DIVariable.isVariablePiece V0.Variable = true ∧
      DIVariable.isVariablePiece N0.Variable = true) ∧
    ∃ A2, addValues NDEBUG S A B.Values = some A2 ∧ A1 = { A2 with End := B.End } := by
  by_cases hc : (A.Begin = B.Begin ∧ ∃ V0 N0, A.Values.head? = some V0 ∧
      B.Values.head? = some N0 ∧
      DIVariable.getName V0.Variable = DIVariable.getName N0.Variable ∧
      DIVariable.isVariablePiece V0.Variable = true ∧
      DIVariable.isVariablePiece N0.Variable = true)
  · refine ⟨hc, ?_⟩
    obtain ⟨hb, V0, N0, hV, hN, hn, hp, hq⟩ := hc
    rw [MergeValues_of_cond NDEBUG S A B V0 N0 hb hV hN hn hp hq] at h
    cases ha : addValues NDEBUG S A B.Values with
    | none => simp [ha] at h
    | some A2 =>
      simp only [ha, Option.map_some', Option.some.injEq, Prod.mk.injEq, true_and] at h
      exact ⟨A2, rfl, h.symm⟩
  · rw [MergeValues_of_not_cond NDEBUG S A B hc] at h
    simp at h

theorem MergeValues_some_false {NDEBUG : Bool} {S : StdSort} {A B A1 : DebugLocEntry}
    (h : MergeValues NDEBUG S A B = some (false, A1)) : A1 = A := by
  by_cases hc : (A.Begin = B.Begin ∧ ∃ V0 N0, A.Values.head? = some V0 ∧
      B.Values.head? = some N0 ∧
      DIVariable.getName V0.Variable = DIVariable.getName N0.Variable ∧
      DIVariable.isVariablePiece V0.Variable = true ∧
      DIVariable.isVariablePiece N0.Variable = true)
  · obtain ⟨hb, V0, N0, hV, hN, hn, hp, hq⟩ := hc
    rw [MergeValues_of_cond NDEBUG S A B V0 N0 hb hV hN hn hp hq] at h
    cases ha : addValues NDEBUG S A B.Values with
    | none => simp [ha] at h
    | some A2 => simp [ha] at h
  · rw [MergeValues_of_not_cond NDEBUG S A B hc] at h
    simp only [Option.some.injEq, Prod.mk.injEq, true_and] at h
    exact h.symm

theorem MergeRanges_values (A B : DebugLocEntry) : (MergeRanges A B).2.Values = A.Values := by
  unfold MergeRanges
  split <;> rfl

/-- What the `assert` of `addValues` leaves true of every entry of a build
without `NDEBUG`: an entry holding more than one value holds pieces only. -/
theorem Reachable.pieces {NDEBUG : Bool} {S : StdSort} {A : DebugLocEntry} (h : Reachable NDEBUG S A) :
    NDEBUG = true ∨ A.Values.length ≤ 1 ∨ AllPieces A.Values := by
  induction h with
  | default => exact Or.inr (Or.inl (by simp [DebugLocEntry.default]))
  | construct B E Val => exact Or.inr (Or.inl (by simp [Construct]))
  | @sortUniqueValues A _ ih =>
    rcases ih with ih | ih | ih
    · exact Or.inl ih
    · right; left
      have h1 := (unique_sublist (S.sort A.Values)).length_le
      have h2 := (sort_perm S A.Values).length_eq
      simp only [DebugLocEntry.sortUniqueValues]
      omega
    · exact Or.inr (Or.inr (allPieces_unique_sort ih))
  | addValues Vals _ ha _ =>
    rcases (addValues_some_eq ha).2 with h | h
    · exact Or.inl h
    · exact Or.inr (Or.inr h)
  | @mergeValues A B A1 r _ _ hm ihA _ =>
    cases r with
    | false => rw [MergeValues_some_false hm]; exact ihA
    | true =>
      obtain ⟨_, A2, ha, rfl⟩ := MergeValues_some_true hm
      rcases (addValues_some_eq ha).2 with h | h
      · exact Or.inl h
      · exact Or.inr (Or.inr h)
  | @mergeRanges A B _ _ ihA _ =>
    rw [MergeRanges_values]
    exact ihA

theorem allPieces_of_head {NDEBUG : Bool} {S : StdSort} {A : DebugLocEntry} {V0 : Value}
    (h : Reachable NDEBUG S A) (hV : A.Values.head? = some V0)
    (hp : DIVariable.isVariablePiece V0.Variable = true) :
    NDEBUG = true ∨ AllPieces A.Values := by
  rcases h.pieces with h | h | h
  · exact Or.inl h
  · right
    cases hl : A.Values with
    | nil => intro V hm; simp at hm
    | cons W Ws =>
      rw [hl] at hV h
      simp only [List.head?_cons, Option.some.injEq] at hV
      simp only [List.length_cons] at h
      have : Ws = [] := List.eq_nil_of_length_eq_zero (by omega)
      subst this
      subst hV
      intro V hm
      simp only [List.mem_singleton] at hm
      rw [hm]; exact hp
  · exact Or.inr h

/-! ## The merge of pieces: `MergeValues` -/

/-- C1: for all entries `A` and `B` (all of them when the assertion is compiled
out, all that a program can hold when it is compiled in), `MergeValues(A, B)`
returns, and it returns true if and only if `A.Begin` and `B.Begin` are the same
symbol, both hold at least one value, the variables of the two first values
have the same name and both are pieces; when the two names differ it returns
false (and leaves `A` as it was). -/
theorem MergeValues_true_iff (NDEBUG : Bool) (S : StdSort) (A B : DebugLocEntry)
    (h : NDEBUG = true ∨ (Reachable NDEBUG S A ∧ Reachable NDEBUG S B)) :
    (∃ r A1, MergeValues NDEBUG S A B = some (r, A1)) ∧
    ((∃ A1, MergeValues NDEBUG S A B = some (true, A1)) ↔
      (A.Begin = B.Begin ∧ ∃ V0 N0, A.Values.head? = some V0 ∧ B.Values.head? = some N0 ∧
        DIVariable.getName V0.Variable = DIVariable.getName N0.Variable ∧
        DIVariable.isVariablePiece V0.Variable = true ∧
        DIVariable.isVariablePiece N0.Variable = true)) ∧
    (∀ V0 N0, A.Values.head? = some V0 → B.Values.head? = some N0 →
      DIVariable.getName V0.Variable ≠ DIVariable.getName N0.Variable →
      MergeValues NDEBUG S A B = some (false, A)) := by
  have key : (A.Begin = B.Begin ∧ ∃ V0 N0, A.Values.head? = some V0 ∧
      B.Values.head? = some N0 ∧
      DIVariable.getName V0.Variable = DIVariable.getName N0.Variable ∧
      DIVariable.isVariablePiece V0.Variable = true ∧
      DIVariable.isVariablePiece N0.Variable = true) →
      ∃ A1, MergeValues NDEBUG S A B = some (true, A1) := by
    rintro ⟨hb, V0, N0, hV, hN, hn, hp, hq⟩
    have hall : NDEBUG = true ∨ AllPieces (A.Values ++ B.Values) := by
      rcases h with h | ⟨hA, hB⟩
      · exact Or.inl h
      · rcases allPieces_of_head hA hV hp with h1 | h1
        · exact Or.inl h1
        · rcases allPieces_of_head hB hN hq with h2 | h2
          · exact Or.inl h2
          · right
            intro V hm
            rcases List.mem_append.mp hm with hm | hm
            · exact h1 V hm
            · exact h2 V hm
    rw [MergeValues_of_cond NDEBUG S A B V0 N0 hb hV hN hn hp hq,
      addValues_eq_some NDEBUG S A B.Values hall]
    exact ⟨_, rfl⟩
  refine ⟨?_, ⟨fun ⟨A1, h⟩ => (MergeValues_some_true h).1, key⟩, ?_⟩
  · by_cases hc : (A.Begin = B.Begin ∧ ∃ V0 N0, A.Values.head? = some V0 ∧
        B.Values.head? = some N0 ∧
        DIVariable.getName V0.Variable = DIVariable.getName N0.Variable ∧
        DIVariable.isVariablePiece V0.Variable = true ∧
        DIVariable.isVariablePiece N0.Variable = true)
    · obtain ⟨A1, h⟩ := key hc
      exact ⟨true, A1, h⟩
    · exact ⟨false, A, MergeValues_of_not_cond NDEBUG S A B hc⟩
  · intro V0 N0 hV hN hne
    apply MergeValues_of_not_cond
    rintro ⟨_, V1, N1, hV1, hN1, hn, _, _⟩
    rw [hV] at hV1
    rw [hN] at hN1
    simp only [Option.some.injEq] at hV1 hN1
    subst hV1
    subst hN1
    exact hne hn

/-- Witness of C1: with the assertion compiled in, two constructed entries for
the pieces of `x` at offsets 0 and 4, with the same begin symbol, are merged. -/
theorem MergeValues_true_iff_witness :
    (false = true ∨ (Reachable false libstdcxx (Construct 1 2 (Value.ofInt pieceX0 0)) ∧
      Reachable false libstdcxx (Construct 1 3 (Value.ofInt pieceX4 1)))) ∧
    ∃ A1, MergeValues false libstdcxx (Construct 1 2 (Value.ofInt pieceX0 0))
      (Construct 1 3 (Value.ofInt pieceX4 1)) = some (true, A1) :=
  ⟨Or.inr ⟨Reachable.construct 1 2 _, Reachable.construct 1 3 _⟩,
    (MergeValues_true_iff false libstdcxx (Construct 1 2 (Value.ofInt pieceX0 0))
      (Construct 1 3 (Value.ofInt pieceX4 1))
      (Or.inr ⟨Reachable.construct 1 2 _, Reachable.construct 1 3 _⟩)).2.1.mpr
      ⟨rfl, Value.ofInt pieceX0 0, Value.ofInt pieceX4 1, rfl, rfl, by decide, rfl, rfl⟩⟩

/-- C2: when `MergeValues(A, B)` returns true, the values of `A` afterwards are
those of `sortUniqueValues` run on the old values of `A` followed by all the
values of `B`, the end of `A` is the end of `B`, and the begin of `A` is
unchanged. -/
theorem MergeValues_true_effect (NDEBUG : Bool) (S : StdSort) (A B A1 : DebugLocEntry)
    (h : MergeValues NDEBUG S A B = some (true, A1)) :
    A1.Values = (sortUniqueValues S { A with Values := A.Values ++ B.Values }).Values ∧
      A1.End = B.End ∧ A1.Begin = A.Begin := by
  obtain ⟨_, A2, ha, rfl⟩ := MergeValues_some_true h
  obtain ⟨rfl, _⟩ := addValues_some_eq ha
  exact ⟨rfl, rfl, rfl⟩

/-- Witness of C2: the merge of the pieces of `x` at offsets 4 and 0 returns true
and leaves the two values in the order of their offsets. -/
theorem MergeValues_true_effect_witness :
    MergeValues false libstdcxx (Construct 1 2 (Value.ofInt pieceX4 1))
        (Construct 1 3 (Value.ofInt pieceX0 0)) =
      some (true, { Begin := 1, End := 3,
                    Values := [Value.ofInt pieceX0 0, Value.ofInt pieceX4 1] }) ∧
    [Value.ofInt pieceX0 0, Value.ofInt pieceX4 1] =
      (sortUniqueValues libstdcxx { Construct 1 2 (Value.ofInt pieceX4 1) with
        Values := (Construct 1 2 (Value.ofInt pieceX4 1)).Values ++
          (Construct 1 3 (Value.ofInt pieceX0 0)).Values }).Values :=
  ⟨by decide,
    (MergeValues_true_effect false libstdcxx (Construct 1 2 (Value.ofInt pieceX4 1))
      (Construct 1 3 (Value.ofInt pieceX0 0))
      { Begin := 1, End := 3, Values := [Value.ofInt pieceX0 0, Value.ofInt pieceX4 1] }
      (by decide)).1⟩

/-- C3: when `MergeValues(A, B)` returns false, `A` afterwards is `A` as it was
(begin, end and values); when the begin symbols of `A` and `B` differ it does
return false. `B` is passed by reference to a constant and is no part of what
the call changes. -/
theorem MergeValues_false_unchanged (NDEBUG : Bool) (S : StdSort) (A B : DebugLocEntry) :
    (∀ A1, MergeValues NDEBUG S A B = some (false, A1) →
      A1.Begin = A.Begin ∧ A1.End = A.End ∧ A1.Values = A.Values) ∧
    (A.Begin ≠ B.Begin → MergeValues NDEBUG S A B = some (false, A)) := by
  constructor
  · intro A1 h
    rw [MergeValues_some_false h]
    exact ⟨rfl, rfl, rfl⟩
  · intro hne
    apply MergeValues_of_not_cond
    rintro ⟨hb, _⟩
    exact hne hb

/-- Witness of C3: entries for two pieces of `x` with begin symbols 1 and 5 are
not merged. -/
theorem MergeValues_false_unchanged_witness :
    (Construct 1 2 (Value.ofInt pieceX0 0)).Begin ≠ (Construct 5 6 (Value.ofInt pieceX4 1)).Begin ∧
    MergeValues false libstdcxx (Construct 1 2 (Value.ofInt pieceX0 0))
        (Construct 5 6 (Value.ofInt pieceX4 1)) =
      some (false, Construct 1 2 (Value.ofInt pieceX0 0)) :=
  ⟨by decide,
    (MergeValues_false_unchanged false libstdcxx (Construct 1 2 (Value.ofInt pieceX0 0))
      (Construct 5 6 (Value.ofInt pieceX4 1))).2 (by decide)⟩

theorem MergeValues_two_pieces (NDEBUG : Bool) (S : StdSort) (B E1 E2 : Ptr) (V W : Value)
    (hn : DIVariable.getName V.Variable = DIVariable.getName W.Variable)
    (hp : DIVariable.isVariablePiece V.Variable = true)
    (hq : DIVariable.isVariablePiece W.Variable = true)
    (hoff : DIVariable.getPieceOffset V.Variable < DIVariable.getPieceOffset W.Variable)
    (hne : Value.eq V W = false) :
    MergeValues NDEBUG S (Construct B E1 V) (Construct B E2 W) =
      some (true, { Begin := B, End := E2, Values := [V, W] }) := by
  have hall : NDEBUG = true ∨
      AllPieces ((Construct B E1 V).Values ++ (Construct B E2 W).Values) := by
    right
    intro X hX
    simp only [Construct, List.nil_append, List.cons_append, List.mem_cons,
      List.mem_singleton, List.not_mem_nil, or_false] at hX
    rcases hX with rfl | rfl
    · exact hp
    · exact hq
  have hsort : S.sort ((Construct B E1 V).Values ++ (Construct B E2 W).Values) = [V, W] :=
    sort_eq_of_strict S (List.pairwise_pair.mpr hoff) (List.Perm.refl _)
  rw [MergeValues_of_cond NDEBUG S (Construct B E1 V) (Construct B E2 W) V W rfl rfl rfl hn hp hq,
    addValues_eq_some NDEBUG S _ _ hall]
  simp only [sortUniqueValues, hsort, unique, uniqueFrom, hne, Bool.false_eq_true, if_false,
    Option.map_some']
  rfl

/-- C4, at the entries for the pieces of `x` at offsets 0 and 4 that both hold
the integer 0, with the same begin symbol: `MergeValues` returns true and the
end is the one of the second entry, but the value list afterwards holds one
element only, the piece at offset 0; the piece at offset 4 is dropped as a
duplicate, `operator==` not reading the variable. -/
theorem MergeValues_drops_piece_of_equal_payload (NDEBUG : Bool) (S : StdSort) :
    MergeValues NDEBUG S (Construct 1 2 (Value.ofInt pieceX0 0))
        (Construct 1 3 (Value.ofInt pieceX4 0)) =
      some (true, { Begin := 1, End := 3, Values := [Value.ofInt pieceX0 0] }) := by
  rw [MergeValues_of_cond NDEBUG S (Construct 1 2 (Value.ofInt pieceX0 0))
      (Construct 1 3 (Value.ofInt pieceX4 0)) (Value.ofInt pieceX0 0) (Value.ofInt pieceX4 0)
      rfl rfl rfl (by decide) rfl rfl,
    addValues_of_strict NDEBUG S (Construct 1 2 (Value.ofInt pieceX0 0))
      (Construct 1 3 (Value.ofInt pieceX4 0)).Values
      [Value.ofInt pieceX0 0, Value.ofInt pieceX4 0] (by decide)
      (List.Perm.refl _) (Or.inr (by unfold AllPieces; decide))]
  rfl

/-! ## The merge of ranges: `MergeRanges` -/

theorem valuesEq_iff (Vs Ws : List Value) :
    valuesEq Vs Ws = true ↔ Vs.length = Ws.length ∧
      ∀ (i : Nat) (h1 : i < Vs.length) (h2 : i < Ws.length),
        Value.eq Vs[i] Ws[i] = true := by
  induction Vs generalizing Ws with
  | nil =>
    cases Ws with
    | nil => simp [valuesEq]
    | cons W Ws => simp [valuesEq]
  | cons V Vs ih =>
    cases Ws with
    | nil => simp [valuesEq]
    | cons W Ws =>
      simp only [valuesEq, Bool.and_eq_true, ih, List.length_cons, Nat.add_right_cancel_iff]
      constructor
      · rintro ⟨h0, hl, hr⟩
        refine ⟨hl, ?_⟩
        intro i h1 h2
        cases i with
        | zero => simpa using h0
        | succ i => simpa using hr i (by simpa using h1) (by simpa using h2)
      · rintro ⟨hl, h⟩
        refine ⟨by simpa using h 0 (by simp) (by simp), hl, ?_⟩
        intro i h1 h2
        simpa using h (i + 1) (by simpa using h1) (by simpa using h2)

/-- C5: `MergeRanges(A, B)` returns true if and only if `A.End` and `B.Begin`
are the same symbol and the value lists of `A` and `B` have the same length and
are equal under `operator==` at every position; when `A.End` is `B.Begin` and
the lists differ at some position, it returns false. -/
theorem MergeRanges_true_iff (A B : DebugLocEntry) :
    ((MergeRanges A B).1 = true ↔
      A.End = B.Begin ∧ A.Values.length = B.Values.length ∧
        ∀ (i : Nat) (h1 : i < A.Values.length) (h2 : i < B.Values.length),
          Value.eq A.Values[i] B.Values[i] = true) ∧
    (A.End = B.Begin →
      (∃ (i : Nat) (h1 : i < A.Values.length) (h2 : i < B.Values.length),
        Value.eq A.Values[i] B.Values[i] = false) →
      (MergeRanges A B).1 = false) := by
  have main : (MergeRanges A B).1 = true ↔
      A.End = B.Begin ∧ A.Values.length = B.Values.length ∧
        ∀ (i : Nat) (h1 : i < A.Values.length) (h2 : i < B.Values.length),
          Value.eq A.Values[i] B.Values[i] = true := by
    rw [← valuesEq_iff]
    unfold MergeRanges
    split
    · rename_i h; simpa using h
    · rename_i h; simpa using h
  refine ⟨main, ?_⟩
  rintro _ ⟨i, h1, h2, hne⟩
  cases hr : (MergeRanges A B).1 with
  | false => rfl
  | true =>
    have := (main.mp hr).2.2 i h1 h2
    rw [hne] at this
    exact absurd this (by decide)

/-- Witness of C5: two adjacent entries whose single values differ are not
merged. -/
theorem MergeRanges_true_iff_witness :
    (Construct 1 2 (Value.ofInt pieceX0 0)).End = (Construct 2 3 (Value.ofInt pieceX0 7)).Begin ∧
    (MergeRanges (Construct 1 2 (Value.ofInt pieceX0 0))
      (Construct 2 3 (Value.ofInt pieceX0 7))).1 = false :=
  ⟨rfl,
    (MergeRanges_true_iff (Construct 1 2 (Value.ofInt pieceX0 0))
      (Construct 2 3 (Value.ofInt pieceX0 7))).2 rfl
      ⟨0, by decide, by decide, by decide⟩⟩

/-- C6: when `MergeRanges(A, B)` returns true, the end of `A` afterwards is the
end of `B` and the begin and values of `A` are unchanged; when it returns
false, `A` is unchanged. `B` is passed by reference to a constant and is no
part of what the call changes. -/
theorem MergeRanges_effect (A B : DebugLocEntry) :
    ((MergeRanges A B).1 = true →
      (MergeRanges A B).2.End = B.End ∧ (MergeRanges A B).2.Begin = A.Begin ∧
        (MergeRanges A B).2.Values = A.Values) ∧
    ((MergeRanges A B).1 = false → (MergeRanges A B).2 = A) := by
  unfold MergeRanges
  split
  · exact ⟨fun _ => ⟨rfl, rfl, rfl⟩, fun h => Bool.noConfusion h⟩
  · exact ⟨fun h => Bool.noConfusion h, fun _ => rfl⟩

/-- Witness of C6: two adjacent entries with the same single value are merged
into the range from the begin of the first to the end of the second. -/
theorem MergeRanges_effect_witness :
    (MergeRanges (Construct 1 2 (Value.ofInt pieceX0 7))
      (Construct 2 3 (Value.ofInt pieceX0 7))).1 = true ∧
    (MergeRanges (Construct 1 2 (Value.ofInt pieceX0 7))
      (Construct 2 3 (Value.ofInt pieceX0 7))).2.End = 3 :=
  ⟨by decide,
    ((MergeRanges_effect (Construct 1 2 (Value.ofInt pieceX0 7))
      (Construct 2 3 (Value.ofInt pieceX0 7))).1 (by decide)).1⟩

/-! ## Sorting and deduplication: `sortUniqueValues`, `addValues` -/

theorem sorted_unique_sort (S : StdSort) (Vs : List Value) :
    (unique (S.sort Vs)).Pairwise (fun a b => Value.offset a ≤ Value.offset b) :=
  (sort_sorted S Vs).sublist (unique_sublist _)

theorem Reachable.sorted {NDEBUG : Bool} {S : StdSort} {A : DebugLocEntry} (h : Reachable NDEBUG S A) :
    A.Values.Pairwise (fun a b => Value.offset a ≤ Value.offset b) := by
  induction h with
  | default => exact List.Pairwise.nil
  | construct B E Val => exact List.pairwise_singleton _ _
  | @sortUniqueValues A _ _ => exact sorted_unique_sort S _
  | addValues Vals _ ha _ =>
    rw [(addValues_some_eq ha).1]
    exact sorted_unique_sort S _
  | @mergeValues A B A1 r _ _ hm ihA _ =>
    cases r with
    | false => rw [MergeValues_some_false hm]; exact ihA
    | true =>
      obtain ⟨_, A2, ha, rfl⟩ := MergeValues_some_true hm
      rw [(addValues_some_eq ha).1]
      exact sorted_unique_sort S _
  | @mergeRanges A B _ _ ihA _ =>
    rw [MergeRanges_values]
    exact ihA

/-- C8: after `sortUniqueValues`, after an `addValues` that returns and after a
`MergeValues` that returns true, the values of the entry are sorted by
non-decreasing piece offset of their variables; so are the values of every
entry obtained from a constructor through the public member functions. -/
theorem values_sorted_by_offset (NDEBUG : Bool) (S : StdSort) :
    (∀ A : DebugLocEntry, (sortUniqueValues S A).Values.Pairwise fun a b =>
      DIVariable.getPieceOffset a.Variable ≤ DIVariable.getPieceOffset b.Variable) ∧
    (∀ (A A1 : DebugLocEntry) (Vals : List Value), addValues NDEBUG S A Vals = some A1 →
      A1.Values.Pairwise fun a b =>
        DIVariable.getPieceOffset a.Variable ≤ DIVariable.getPieceOffset b.Variable) ∧
    (∀ A B A1 : DebugLocEntry, MergeValues NDEBUG S A B = some (true, A1) →
      A1.Values.Pairwise fun a b =>
        DIVariable.getPieceOffset a.Variable ≤ DIVariable.getPieceOffset b.Variable) ∧
    (∀ A : DebugLocEntry, Reachable NDEBUG S A →
      A.Values.Pairwise fun a b =>
        DIVariable.getPieceOffset a.Variable ≤ DIVariable.getPieceOffset b.Variable) := by
  refine ⟨fun A => sorted_unique_sort S _, ?_, ?_, fun A h => h.sorted⟩
  · intro A A1 Vals ha
    rw [(addValues_some_eq ha).1]
    exact sorted_unique_sort S _
  · intro A B A1 hm
    obtain ⟨_, A2, ha, rfl⟩ := MergeValues_some_true hm
    rw [(addValues_some_eq ha).1]
    exact sorted_unique_sort S _

/-- Witness of C8: the entry left by merging the pieces of `x` at offsets 4 and 0
holds its two values in the order of their offsets. -/
theorem values_sorted_by_offset_witness :
    MergeValues false libstdcxx (Construct 1 2 (Value.ofInt pieceX4 1))
        (Construct 1 3 (Value.ofInt pieceX0 0)) =
      some (true, { Begin := 1, End := 3,
                    Values := [Value.ofInt pieceX0 0, Value.ofInt pieceX4 1] }) ∧
    [Value.ofInt pieceX0 0, Value.ofInt pieceX4 1].Pairwise (fun a b =>
      DIVariable.getPieceOffset a.Variable ≤ DIVariable.getPieceOffset b.Variable) :=
  ⟨by decide,
    (values_sorted_by_offset false libstdcxx).2.2.1 (Construct 1 2 (Value.ofInt pieceX4 1))
      (Construct 1 3 (Value.ofInt pieceX0 0))
      { Begin := 1, End := 3, Values := [Value.ofInt pieceX0 0, Value.ofInt pieceX4 1] }
      (by decide)⟩

theorem uniqueFrom_idem (Kept : Value) (Vs : List Value) :
    uniqueFrom Kept (uniqueFrom Kept Vs) = uniqueFrom Kept Vs := by
  induction Vs generalizing Kept with
  | nil => rfl
  | cons V Vs ih =>
    by_cases h : Value.eq Kept V = true
    · simp only [uniqueFrom, h, if_true]
      exact ih Kept
    · simp only [uniqueFrom, h, if_false, Bool.false_eq_true]
      exact congrArg (V :: ·) (ih V)

theorem unique_idem (Vs : List Value) : unique (unique Vs) = unique Vs := by
  cases Vs with
  | nil => rfl
  | cons V Vs => simp only [unique, uniqueFrom_idem]

theorem libstdcxx_sort_tied17 :
    libstdcxx.sort tied17.Values = std.sort Value.lt tied17.Values ∧
    libstdcxx.sort (sortUniqueValues libstdcxx tied17).Values =
      std.sort Value.lt (sortUniqueValues libstdcxx tied17).Values := by
  decide

theorem libstdcxx_sort_added17 :
    libstdcxx.sort ((Construct 1 2 (Value.ofInt pieceX0 0)).Values ++
        valuesAtX0 [1, 2, 3, 4, 5, 6, 7, 8, 1, 10, 11, 12, 13, 14, 15, 16]) =
      std.sort Value.lt ((Construct 1 2 (Value.ofInt pieceX0 0)).Values ++
        valuesAtX0 [1, 2, 3, 4, 5, 6, 7, 8, 1, 10, 11, 12, 13, 14, 15, 16]) ∧
    libstdcxx.sort (added17.Values ++ []) = std.sort Value.lt (added17.Values ++ []) := by
  decide

/-- C9 as stated fails: with the `std::sort` of libstdc++, `sortUniqueValues` on
17 values for offset 0 of `x` holding the integers 0 to 16 leaves them in one
order, and a second run leaves them in another. -/
theorem sortUniqueValues_not_idempotent :
    intsOf (sortUniqueValues libstdcxx tied17).Values =
      [8, 16, 15, 14, 13, 12, 11, 10, 9, 0, 7, 6, 5, 4, 3, 2, 1] ∧
    intsOf (sortUniqueValues libstdcxx (sortUniqueValues libstdcxx tied17)).Values =
      [9, 1, 2, 3, 4, 5, 6, 7, 0, 8, 10, 11, 12, 13, 14, 15, 16] ∧
    ¬ ∀ (S : StdSort) (A : DebugLocEntry),
      sortUniqueValues S (sortUniqueValues S A) = sortUniqueValues S A := by
  have h1 : intsOf (sortUniqueValues libstdcxx tied17).Values =
      [8, 16, 15, 14, 13, 12, 11, 10, 9, 0, 7, 6, 5, 4, 3, 2, 1] := by decide
  have h2 : intsOf (sortUniqueValues libstdcxx (sortUniqueValues libstdcxx tied17)).Values =
      [9, 1, 2, 3, 4, 5, 6, 7, 0, 8, 10, 11, 12, 13, 14, 15, 16] := by decide
  refine ⟨h1, h2, fun h => ?_⟩
  rw [h libstdcxx tied17, h1] at h2
  revert h2
  decide

/-- C9, amended: when no two values of the list have the same piece offset, or
more generally when no two values left by one run of `sortUniqueValues` have,
a second run leaves exactly the entry that one run leaves, whatever the
`std::sort`. -/
theorem sortUniqueValues_idempotent_of_distinct_offsets (S : StdSort) (A : DebugLocEntry) :
    ((A.Values.Pairwise fun a b =>
        DIVariable.getPieceOffset a.Variable ≠ DIVariable.getPieceOffset b.Variable) →
      sortUniqueValues S (sortUniqueValues S A) = sortUniqueValues S A) ∧
    (((sortUniqueValues S A).Values.Pairwise fun a b =>
        DIVariable.getPieceOffset a.Variable ≠ DIVariable.getPieceOffset b.Variable) →
      sortUniqueValues S (sortUniqueValues S A) = sortUniqueValues S A) := by
  have key : ((sortUniqueValues S A).Values.Pairwise fun a b =>
        Value.offset a ≠ Value.offset b) →
      sortUniqueValues S (sortUniqueValues S A) = sortUniqueValues S A := by
    intro hne
    have hlt := strict_of_sorted_of_ne (sorted_unique_sort S A.Values) hne
    have hs : S.sort (unique (S.sort A.Values)) = unique (S.sort A.Values) :=
      sort_eq_of_strict S hlt (List.Perm.refl _)
    simp only [sortUniqueValues, hs, unique_idem]
  refine ⟨fun hne => key ?_, key⟩
  exact (offsets_ne_perm (sort_perm S A.Values).symm hne).sublist (unique_sublist _)

/-- Witness of C9: on the values at offsets 4, 8 and 0 holding 7, 5 and 7, a
second run with libstdc++ changes nothing. -/
theorem sortUniqueValues_idempotent_of_distinct_offsets_witness :
    sortUniqueValues libstdcxx (sortUniqueValues libstdcxx mixed3) =
      sortUniqueValues libstdcxx mixed3 :=
  (sortUniqueValues_idempotent_of_distinct_offsets libstdcxx mixed3).1 (by decide)

theorem Value.eq_swap (a b : Value) : Value.eq a b = Value.eq b a := by
  cases ha : a.EntryKind <;> cases hb : b.EntryKind <;>
    simp [Value.eq, ha, hb] <;> exact eq_comm

theorem uniqueFrom_eq_self (Kept : Value) (Vs : List Value)
    (h : (Kept :: Vs).Pairwise fun a b => Value.eq a b = false) : uniqueFrom Kept Vs = Vs := by
  induction Vs generalizing Kept with
  | nil => rfl
  | cons V Vs ih =>
    have h1 : Value.eq Kept V = false := (List.pairwise_cons.mp h).1 V (List.mem_cons_self _ _)
    have h2 := (List.pairwise_cons.mp h).2
    simp only [uniqueFrom, h1, Bool.false_eq_true, if_false, ih V h2]

theorem unique_eq_self (Vs : List Value)
    (h : Vs.Pairwise fun a b => Value.eq a b = false) : unique Vs = Vs := by
  cases Vs with
  | nil => rfl
  | cons V Vs => simp only [unique, uniqueFrom_eq_self V Vs h]

theorem pairwise_ne_perm {Vs Ws : List Value} (hp : Vs.Perm Ws)
    (h : Vs.Pairwise fun a b => Value.eq a b = false) :
    Ws.Pairwise fun a b => Value.eq a b = false :=
  (hp.pairwise_iff (fun {a b} hab => by rw [Value.eq_swap]; exact hab)).mp h

theorem addSingletons_spec (NDEBUG : Bool) (S : StdSort) (Vs : List Value) :
    ∀ A : DebugLocEntry,
      ((A.Values ++ Vs).Pairwise fun a b => Value.eq a b = false) →
      AllPieces (A.Values ++ Vs) →
      (A.Values.Pairwise fun a b => Value.offset a ≤ Value.offset b) →
      ∃ L, addSingletons NDEBUG S A Vs = some { A with Values := L } ∧
        L.Perm (A.Values ++ Vs) ∧
        L.Pairwise fun a b => Value.offset a ≤ Value.offset b := by
  induction Vs with
  | nil =>
    intro A _ _ hs
    exact ⟨A.Values, rfl, by simp, hs⟩
  | cons V Vs ih =>
    intro A hd hp hs
    have hsplit : A.Values ++ V :: Vs = (A.Values ++ [V]) ++ Vs := by simp
    rw [hsplit] at hd hp
    have hp1 : AllPieces (A.Values ++ [V]) := fun W hW => hp W (List.mem_append_left _ hW)
    have hd1 : (A.Values ++ [V]).Pairwise fun a b => Value.eq a b = false :=
      (List.pairwise_append.mp hd).1
    have hperm := sort_perm S (A.Values ++ [V])
    have hu : unique (S.sort (A.Values ++ [V])) = S.sort (A.Values ++ [V]) :=
      unique_eq_self _ (pairwise_ne_perm hperm.symm hd1)
    have hadd : addValues NDEBUG S A [V] =
        some { A with Values := S.sort (A.Values ++ [V]) } := by
      rw [addValues_eq_some NDEBUG S A [V] (Or.inr hp1)]
      simp only [sortUniqueValues, hu]
    have hperm2 : (S.sort (A.Values ++ [V]) ++ Vs).Perm ((A.Values ++ [V]) ++ Vs) :=
      hperm.append_right Vs
    obtain ⟨L, hL, hLp, hLs⟩ := ih { A with Values := S.sort (A.Values ++ [V]) }
      (pairwise_ne_perm hperm2.symm hd)
      (fun W hW => hp W (hperm2.mem_iff.mp hW))
      (sort_sorted S _)
    refine ⟨L, ?_, ?_, hLs⟩
    · simp only [addSingletons, hadd, Option.some_bind]
      exact hL
    · rw [hsplit]
      exact hLp.trans hperm2

/-- C10 as stated fails: the two values for offset 0 of `x` holding the integers
1 and 2 are distinct pieces, and inserting them in the two possible orders
leaves, with the `std::sort` of libstdc++, two different value lists. -/
theorem addSingletons_order_dependent :
    ¬ ∀ (NDEBUG : Bool) (S : StdSort) (B E : Ptr) (V W : Value) (Vs Ws : List Value),
      (V :: Vs).Perm (W :: Ws) →
      ((V :: Vs).Pairwise fun a b => Value.eq a b = false) →
      AllPieces (V :: Vs) →
      (addSingletons NDEBUG S (Construct B E V) Vs).map (fun A => A.Values) =
        (addSingletons NDEBUG S (Construct B E W) Ws).map (fun A => A.Values) := by
  intro h
  have h1 := h false libstdcxx 1 2 (Value.ofInt pieceX0 1) (Value.ofInt pieceX0 2)
    [Value.ofInt pieceX0 2] [Value.ofInt pieceX0 1] (List.Perm.swap _ _ _)
    (by decide) (by intro V hV; simp at hV; rcases hV with rfl | rfl <;> rfl)
  revert h1
  decide

/-- C10, amended: for values that are pairwise distinct under `operator==` and
all pieces, and for two orderings of them, constructing an entry from the first
value and adding each further one by `addValues` of a singleton succeeds for
both orderings; each resulting list is sorted by piece offset, holds no two
values that compare equal, and the two lists hold the same values; when no two
of the values share a piece offset, the two lists are the same list. -/
theorem addSingletons_order_independent (NDEBUG : Bool) (S : StdSort) (B E : Ptr) (V W : Value)
    (Vs Ws : List Value) (hperm : (V :: Vs).Perm (W :: Ws))
    (hdist : (V :: Vs).Pairwise fun a b => Value.eq a b = false)
    (hpiece : AllPieces (V :: Vs)) :
    ∃ L1 L2 : List Value,
      addSingletons NDEBUG S (Construct B E V) Vs = some { Begin := B, End := E, Values := L1 } ∧
      addSingletons NDEBUG S (Construct B E W) Ws = some { Begin := B, End := E, Values := L2 } ∧
      (L1.Pairwise fun a b =>
        DIVariable.getPieceOffset a.Variable ≤ DIVariable.getPieceOffset b.Variable) ∧
      (L2.Pairwise fun a b =>
        DIVariable.getPieceOffset a.Variable ≤ DIVariable.getPieceOffset b.Variable) ∧
      (L1.Pairwise fun a b => Value.eq a b = false) ∧
      (L2.Pairwise fun a b => Value.eq a b = false) ∧
      L1.Perm (V :: Vs) ∧ L2.Perm (W :: Ws) ∧ L1.Perm L2 ∧
      (((V :: Vs).Pairwise fun a b =>
          DIVariable.getPieceOffset a.Variable ≠ DIVariable.getPieceOffset b.Variable) →
        L1 = L2) := by
  have hdist2 := pairwise_ne_perm hperm hdist
  have hpiece2 : AllPieces (W :: Ws) := fun X hX => hpiece X (hperm.mem_iff.mpr hX)
  obtain ⟨L1, h1, hp1, hs1⟩ := addSingletons_spec NDEBUG S Vs (Construct B E V)
    hdist hpiece (List.pairwise_singleton _ _)
  obtain ⟨L2, h2, hp2, hs2⟩ := addSingletons_spec NDEBUG S Ws (Construct B E W)
    hdist2 hpiece2 (List.pairwise_singleton _ _)
  have hp1 : L1.Perm (V :: Vs) := hp1
  have hp2 : L2.Perm (W :: Ws) := hp2
  have h12 : L1.Perm L2 := hp1.trans (hperm.trans hp2.symm)
  refine ⟨L1, L2, h1, h2, hs1, hs2, pairwise_ne_perm hp1.symm hdist,
    pairwise_ne_perm hp2.symm hdist2, hp1, hp2, h12, ?_⟩
  intro hoff
  have hoff1 : L1.Pairwise fun a b => Value.offset a ≠ Value.offset b :=
    (hp1.symm.pairwise_iff (fun {a b} hab => Ne.symm hab)).mp hoff
  have hoff2 : L2.Pairwise fun a b => Value.offset a ≠ Value.offset b :=
    (h12.pairwise_iff (fun {a b} hab => Ne.symm hab)).mp hoff1
  have hlt1 : L1.Pairwise fun a b => Value.offset a < Value.offset b :=
    (hs1.and hoff1).imp fun {a b} hab => Nat.lt_of_le_of_ne hab.1 hab.2
  have hlt2 : L2.Pairwise fun a b => Value.offset a < Value.offset b :=
    (hs2.and hoff2).imp fun {a b} hab => Nat.lt_of_le_of_ne hab.1 hab.2
  have : IsAntisymm Value (fun a b => Value.offset a < Value.offset b) :=
    ⟨fun a b hab hba => absurd hab (Nat.lt_asymm hba)⟩
  exact List.eq_of_perm_of_sorted h12 hlt1 hlt2

/-- Witness of C10: the pieces of `x` at offsets 0, 4 and 8, holding 5, 7 and 6,
inserted in the orders 8, 0, 4 and 4, 8, 0, leave the same list. -/
theorem addSingletons_order_independent_witness :
    ([Value.ofInt pieceX8 6, Value.ofInt pieceX0 5, Value.ofInt pieceX4 7].Perm
      [Value.ofInt pieceX4 7, Value.ofInt pieceX8 6, Value.ofInt pieceX0 5]) ∧
    ∃ L : List Value,
      addSingletons false libstdcxx (Construct 1 2 (Value.ofInt pieceX8 6))
        [Value.ofInt pieceX0 5, Value.ofInt pieceX4 7] =
          some { Begin := 1, End := 2, Values := L } ∧
      addSingletons false libstdcxx (Construct 1 2 (Value.ofInt pieceX4 7))
        [Value.ofInt pieceX8 6, Value.ofInt pieceX0 5] =
          some { Begin := 1, End := 2, Values := L } :=
  ⟨by decide, by
    obtain ⟨L1, L2, h1, h2, _, _, _, _, _, _, _, h12⟩ :=
      addSingletons_order_independent false libstdcxx 1 2 (Value.ofInt pieceX8 6) (Value.ofInt pieceX4 7)
        [Value.ofInt pieceX0 5, Value.ofInt pieceX4 7]
        [Value.ofInt pieceX8 6, Value.ofInt pieceX0 5]
        (by decide) (by decide)
        (by intro V hV; simp at hV; rcases hV with rfl | rfl | rfl <;> rfl)
    have h := h12 (by decide)
    subst h
    exact ⟨L1, h1, h2⟩⟩

/-! ## The assertion of `addValues` -/

/-- C11 as stated fails: with `NDEBUG` defined the assertion is compiled out,
and `addValues` on the entry constructed for the unsplit variable `y` returns
although the value of the resulting list is not a piece. -/
theorem addValues_unchecked_without_assert :
    ¬ ∀ (NDEBUG : Bool) (S : StdSort) (A : DebugLocEntry) (Vals : List Value),
      (addValues NDEBUG S A Vals = none ↔
        ∃ V ∈ (sortUniqueValues S { A with Values := A.Values ++ Vals }).Values,
          DIVariable.isVariablePiece V.Variable = false) := by
  intro h
  have h1 := (h true libstdcxx (Construct 1 2 (Value.ofInt wholeY 0)) []).mpr
    ⟨Value.ofInt wholeY 0, by decide, rfl⟩
  revert h1
  decide

/-- C11, amended: `addValues` aborts on the assertion if and only if `NDEBUG`
is not defined and, after appending, sorting and deduplicating, some value of
the list has a variable that is not a piece; in every other case (and always
when `NDEBUG` is defined) it returns, the values of the entry being those of
`sortUniqueValues` run on the old values followed by the supplied ones, with
begin and end unchanged. -/
theorem addValues_assert_iff (NDEBUG : Bool) (S : StdSort) (A : DebugLocEntry) (Vals : List Value) :
    (addValues NDEBUG S A Vals = none ↔
      NDEBUG = false ∧
        ∃ V ∈ (sortUniqueValues S { A with Values := A.Values ++ Vals }).Values,
          DIVariable.isVariablePiece V.Variable = false) ∧
    (¬ (NDEBUG = false ∧
        ∃ V ∈ (sortUniqueValues S { A with Values := A.Values ++ Vals }).Values,
          DIVariable.isVariablePiece V.Variable = false) →
      ∃ A1, addValues NDEBUG S A Vals = some A1 ∧
        A1.Values = (sortUniqueValues S { A with Values := A.Values ++ Vals }).Values ∧
        A1.Begin = A.Begin ∧ A1.End = A.End) := by
  have hiff : addValues NDEBUG S A Vals = none ↔
      NDEBUG = false ∧
        ∃ V ∈ (sortUniqueValues S { A with Values := A.Values ++ Vals }).Values,
          DIVariable.isVariablePiece V.Variable = false := by
    simp only [addValues, assert, Option.map_eq_none', ite_eq_right_iff, Bool.or_eq_true,
      List.all_eq_true, reduceCtorEq, imp_false, not_or, Bool.not_eq_true, not_forall,
      exists_prop]
  refine ⟨hiff, ?_⟩
  intro hn
  cases ha : addValues NDEBUG S A Vals with
  | none => exact absurd (hiff.mp ha) hn
  | some A1 =>
    obtain ⟨rfl, _⟩ := addValues_some_eq ha
    exact ⟨_, rfl, rfl, rfl, rfl⟩

/-- Witness of C11: with the assertion compiled in, adding the piece of `x` at
offset 4 to the entry of the piece at offset 0 returns. -/
theorem addValues_assert_iff_witness :
    ∃ A1, addValues false libstdcxx (Construct 1 2 (Value.ofInt pieceX0 0)) [Value.ofInt pieceX4 1] =
        some A1 ∧
      A1.Values = [Value.ofInt pieceX0 0, Value.ofInt pieceX4 1] := by
  obtain ⟨A1, h1, h2, _, _⟩ :=
    (addValues_assert_iff false libstdcxx (Construct 1 2 (Value.ofInt pieceX0 0))
      [Value.ofInt pieceX4 1]).2 (by decide)
  exact ⟨A1, h1, by rw [h2]; decide⟩

/-! ## Equality and order of values -/

theorem Value.eq_iff (a b : Value) :
    Value.eq a b = true ↔
      a.EntryKind = b.EntryKind ∧
      (a.EntryKind = EntryType.E_Location → a.Loc = b.Loc) ∧
      (a.EntryKind = EntryType.E_Integer → a.Constant_Int = b.Constant_Int) ∧
      (a.EntryKind = EntryType.E_ConstantFP → a.Constant_CFP = b.Constant_CFP) ∧
      (a.EntryKind = EntryType.E_ConstantInt → a.Constant_CIP = b.Constant_CIP) := by
  cases ha : a.EntryKind <;> cases hb : b.EntryKind <;> simp [Value.eq, ha, hb]

theorem Value.eq_self (a : Value) : Value.eq a a = true := by
  cases ha : a.EntryKind <;> simp [Value.eq, ha]

theorem Value.eq_chain {a b c : Value} (hab : Value.eq a b = true) (hbc : Value.eq b c = true) :
    Value.eq a c = true := by
  rw [Value.eq_iff] at hab hbc ⊢
  obtain ⟨h0, h1, h2, h3, h4⟩ := hab
  obtain ⟨k0, k1, k2, k3, k4⟩ := hbc
  refine ⟨h0.trans k0, fun h => ?_, fun h => ?_, fun h => ?_, fun h => ?_⟩
  · exact (h1 h).trans (k1 (h0 ▸ h))
  · exact (h2 h).trans (k2 (h0 ▸ h))
  · exact (h3 h).trans (k3 (h0 ▸ h))
  · exact (h4 h).trans (k4 (h0 ▸ h))

/-- C15: `a == b` holds if and only if the tags match and the payloads selected
by the tag match (the location for a location, the integer for an integer, the
address for the two constant forms); the result does not depend on the variable
of either value, and the equality is reflexive, symmetric and transitive. -/
theorem Value_eq_spec (a b : Value) :
    (Value.eq a b = true ↔
      a.EntryKind = b.EntryKind ∧
      (a.EntryKind = EntryType.E_Location → a.Loc = b.Loc) ∧
      (a.EntryKind = EntryType.E_Integer → a.Constant_Int = b.Constant_Int) ∧
      (a.EntryKind = EntryType.E_ConstantFP → a.Constant_CFP = b.Constant_CFP) ∧
      (a.EntryKind = EntryType.E_ConstantInt → a.Constant_CIP = b.Constant_CIP)) ∧
    (∀ Var1 Var2 : MDNode,
      Value.eq { a with Variable := Var1 } { b with Variable := Var2 } = Value.eq a b) ∧
    Value.eq a a = true ∧
    Value.eq a b = Value.eq b a ∧
    (∀ c : Value, Value.eq a b = true → Value.eq b c = true → Value.eq a c = true) :=
  ⟨Value.eq_iff a b, fun _ _ => rfl, Value.eq_self a, Value.eq_swap a b,
    fun _ hab hbc => Value.eq_chain hab hbc⟩

/-- Witness of C15: the integers 0 held for the pieces of `x` at offsets 0 and 4
are equal values, and by transitivity so are the first and a third such value. -/
theorem Value_eq_spec_witness :
    Value.eq (Value.ofInt pieceX0 0) (Value.ofInt pieceX4 0) = true ∧
    Value.eq (Value.ofInt pieceX0 0) (Value.ofInt pieceX8 0) = true :=
  ⟨by decide,
    (Value_eq_spec (Value.ofInt pieceX0 0) (Value.ofInt pieceX4 0)).2.2.2.2
      (Value.ofInt pieceX8 0) (by decide) (by decide)⟩

/-- C18: `a < b` holds if and only if the piece offset of the variable of `a`
is strictly less than that of `b`, whatever the tags and payloads; the relation
is irreflexive and transitive, being incomparable under it is transitive, and
two values at the same piece offset are incomparable. -/
theorem Value_lt_spec (a b : Value) :
    (Value.lt a b = true ↔
      DIVariable.getPieceOffset a.Variable < DIVariable.getPieceOffset b.Variable) ∧
    (∀ (k1 k2 : EntryType) (i1 i2 : Int) (f1 f2 c1 c2 : Ptr) (l1 l2 : MachineLocation),
      Value.lt { a with EntryKind := k1, Constant_Int := i1, Constant_CFP := f1,
                        Constant_CIP := c1, Loc := l1 }
          { b with EntryKind := k2, Constant_Int := i2, Constant_CFP := f2,
                   Constant_CIP := c2, Loc := l2 } = Value.lt a b) ∧
    Value.lt a a = false ∧
    (∀ c : Value, Value.lt a b = true → Value.lt b c = true → Value.lt a c = true) ∧
    (∀ c : Value, (Value.lt a b = false ∧ Value.lt b a = false) →
      (Value.lt b c = false ∧ Value.lt c b = false) →
      (Value.lt a c = false ∧ Value.lt c a = false)) ∧
    (DIVariable.getPieceOffset a.Variable = DIVariable.getPieceOffset b.Variable →
      Value.lt a b = false ∧ Value.lt b a = false) := by
  refine ⟨by simp [Value.lt], fun _ _ _ _ _ _ _ _ _ _ => rfl, by simp [Value.lt], ?_, ?_, ?_⟩
  · intro c
    simp only [Value.lt, decide_eq_true_eq]
    omega
  · intro c
    simp only [Value.lt, decide_eq_false_iff_not]
    omega
  · simp only [Value.lt, decide_eq_false_iff_not]
    omega

/-- Witness of C18: the values for the pieces of `x` at offsets 0, 4 and 8 are
ordered by their offsets, whatever they hold. -/
theorem Value_lt_spec_witness :
    Value.lt (Value.ofInt pieceX0 9) (Value.ofInt pieceX8 1) = true :=
  (Value_lt_spec (Value.ofInt pieceX0 9) (Value.ofInt pieceX4 5)).2.2.2.1
    (Value.ofInt pieceX8 1) (by decide) (by decide)

/-! ## Invariants of the entries -/

theorem allPieces_of_head_of_small {Vs : List Value} {V0 : Value}
    (h : Vs.length ≤ 1 ∨ AllPieces Vs) (hV : Vs.head? = some V0)
    (hp : DIVariable.isVariablePiece V0.Variable = true) : AllPieces Vs := by
  rcases h with h | h
  · cases Vs with
    | nil => intro V hm; simp at hm
    | cons W Ws =>
      simp only [List.head?_cons, Option.some.injEq] at hV
      simp only [List.length_cons] at h
      have : Ws = [] := List.eq_nil_of_length_eq_zero (by omega)
      subst this
      subst hV
      intro V hm
      simp only [List.mem_singleton] at hm
      rw [hm]; exact hp
  · exact h

theorem allPieces_append {Vs Ws : List Value} (h1 : AllPieces Vs) (h2 : AllPieces Ws) :
    AllPieces (Vs ++ Ws) := by
  intro V hm
  rcases List.mem_append.mp hm with hm | hm
  · exact h1 V hm
  · exact h2 V hm

theorem MergeReachable.small_or_pieces {NDEBUG : Bool} {S : StdSort} {A : DebugLocEntry}
    (h : MergeReachable NDEBUG S A) : A.Values.length ≤ 1 ∨ AllPieces A.Values := by
  induction h with
  | construct B E Val => exact Or.inl (by simp [Construct])
  | @mergeValues A B A1 r _ _ hm ihA ihB =>
    cases r with
    | false => rw [MergeValues_some_false hm]; exact ihA
    | true =>
      obtain ⟨⟨_, V0, N0, hV, hN, _, hp, hq⟩, A2, ha, rfl⟩ := MergeValues_some_true hm
      right
      rw [(addValues_some_eq ha).1]
      exact allPieces_unique_sort (allPieces_append (allPieces_of_head_of_small ihA hV hp)
        (allPieces_of_head_of_small ihB hN hq))
  | @mergeRanges A B _ _ ihA _ =>
    rw [MergeRanges_values]
    exact ihA

theorem MergeValues_returns_of_small (NDEBUG : Bool) (S : StdSort) (A B : DebugLocEntry)
    (hA : A.Values.length ≤ 1 ∨ AllPieces A.Values)
    (hB : B.Values.length ≤ 1 ∨ AllPieces B.Values) :
    ∃ r A1, MergeValues NDEBUG S A B = some (r, A1) := by
  by_cases hc : (A.Begin = B.Begin ∧ ∃ V0 N0, A.Values.head? = some V0 ∧
      B.Values.head? = some N0 ∧
      DIVariable.getName V0.Variable = DIVariable.getName N0.Variable ∧
      DIVariable.isVariablePiece V0.Variable = true ∧
      DIVariable.isVariablePiece N0.Variable = true)
  · obtain ⟨hb, V0, N0, hV, hN, hn, hp, hq⟩ := hc
    rw [MergeValues_of_cond NDEBUG S A B V0 N0 hb hV hN hn hp hq,
      addValues_eq_some NDEBUG S A B.Values (Or.inr (allPieces_append
        (allPieces_of_head_of_small hA hV hp) (allPieces_of_head_of_small hB hN hq)))]
    exact ⟨true, _, rfl⟩
  · exact ⟨false, A, MergeValues_of_not_cond NDEBUG S A B hc⟩

/-- C12: for every entry obtained from `Construct` by `MergeValues` and
`MergeRanges` calls on entries obtained in the same way, in either build:
whenever the entry holds more than one value, the variable of every value is a
piece; and a further `MergeValues` call on two such entries returns, so the
assertion inside `addValues` does not fail. -/
theorem MergeReachable_pieces_and_no_abort (NDEBUG : Bool) (S : StdSort) (A : DebugLocEntry)
    (hA : MergeReachable NDEBUG S A) :
    (1 < A.Values.length → ∀ V ∈ A.Values, DIVariable.isVariablePiece V.Variable = true) ∧
    (∀ B : DebugLocEntry, MergeReachable NDEBUG S B →
      ∃ r A1, MergeValues NDEBUG S A B = some (r, A1)) := by
  refine ⟨fun hl => ?_, fun B hB => MergeValues_returns_of_small NDEBUG S A B hA.small_or_pieces hB.small_or_pieces⟩
  rcases hA.small_or_pieces with h | h
  · omega
  · exact h

/-- Witness of C12: with the assertion compiled in, the entry left by merging
the pieces of `x` at offsets 0 and 4 can be merged with the entry of the piece
at offset 8 without an abort. -/
theorem MergeReachable_pieces_and_no_abort_witness :
    MergeReachable false libstdcxx mergedX04 ∧
    ∃ r A1, MergeValues false libstdcxx mergedX04 (Construct 1 4 (Value.ofInt pieceX8 2)) =
      some (r, A1) :=
  have h : MergeReachable false libstdcxx mergedX04 :=
    @MergeReachable.mergeValues false libstdcxx (Construct 1 2 (Value.ofInt pieceX0 0))
      (Construct 1 3 (Value.ofInt pieceX4 1)) mergedX04 true
      (MergeReachable.construct 1 2 (Value.ofInt pieceX0 0))
      (MergeReachable.construct 1 3 (Value.ofInt pieceX4 1)) (by decide)
  ⟨h, (MergeReachable_pieces_and_no_abort false libstdcxx mergedX04 h).2 _
    (MergeReachable.construct 1 4 (Value.ofInt pieceX8 2))⟩

theorem unique_ne_nil {Vs : List Value} (h : Vs ≠ []) : unique Vs ≠ [] := by
  cases Vs with
  | nil => exact absurd rfl h
  | cons V Vs => simp [unique]

theorem sort_ne_nil (S : StdSort) {Vs : List Value} (h : Vs ≠ []) : S.sort Vs ≠ [] := by
  intro h0
  have := (sort_perm S Vs).length_eq
  rw [h0] at this
  exact h (List.eq_nil_of_length_eq_zero this.symm)

theorem unique_sort_append_ne_nil (S : StdSort) {Vs : List Value} (Ws : List Value)
    (h : Vs ≠ []) :
    unique (S.sort (Vs ++ Ws)) ≠ [] :=
  unique_ne_nil (sort_ne_nil S (by simp [h]))

theorem addValues_ne_nil {NDEBUG : Bool} {S : StdSort} {A A1 : DebugLocEntry} {Vals : List Value}
    (h : A.Values ≠ []) (ha : addValues NDEBUG S A Vals = some A1) : A1.Values ≠ [] := by
  rw [(addValues_some_eq ha).1]
  exact unique_sort_append_ne_nil S Vals h

theorem MergeValues_ne_nil {NDEBUG : Bool} {S : StdSort} {A B A1 : DebugLocEntry} {r : Bool}
    (h : A.Values ≠ []) (hm : MergeValues NDEBUG S A B = some (r, A1)) : A1.Values ≠ [] := by
  cases r with
  | false => rw [MergeValues_some_false hm]; exact h
  | true =>
    obtain ⟨_, A2, ha, rfl⟩ := MergeValues_some_true hm
    have h2 : A2.Values ≠ [] := addValues_ne_nil h ha
    exact h2

theorem Constructed.ne_nil {NDEBUG : Bool} {S : StdSort} {A : DebugLocEntry} (h : Constructed NDEBUG S A) :
    A.Values ≠ [] := by
  induction h with
  | construct B E Val => simp [Construct]
  | @sortUniqueValues A _ ih => exact unique_ne_nil (sort_ne_nil S ih)
  | addValues Vals _ ha ih => exact addValues_ne_nil ih ha
  | mergeValues B _ hm ih => exact MergeValues_ne_nil ih hm
  | mergeRanges B _ ih => rw [MergeRanges_values]; exact ih

/-- C13: `Construct` yields an entry with exactly one value; `sortUniqueValues`,
an `addValues` or `MergeValues` that returns, and `MergeRanges` leave a
non-empty value list non-empty; so every entry whose life started in
`Construct` holds at least one value, while the default-constructed entry
holds none. -/
theorem values_nonempty (NDEBUG : Bool) (S : StdSort) :
    (∀ (B E : Ptr) (Val : Value), (Construct B E Val).Values.length = 1) ∧
    (∀ A : DebugLocEntry, A.Values ≠ [] → (sortUniqueValues S A).Values ≠ []) ∧
    (∀ (A A1 : DebugLocEntry) (Vals : List Value), A.Values ≠ [] →
      addValues NDEBUG S A Vals = some A1 → A1.Values ≠ []) ∧
    (∀ (A B A1 : DebugLocEntry) (r : Bool), A.Values ≠ [] →
      MergeValues NDEBUG S A B = some (r, A1) → A1.Values ≠ []) ∧
    (∀ A B : DebugLocEntry, A.Values ≠ [] → (MergeRanges A B).2.Values ≠ []) ∧
    (∀ A : DebugLocEntry, Constructed NDEBUG S A → A.Values ≠ []) ∧
    DebugLocEntry.default.Values = [] := by
  refine ⟨fun _ _ _ => rfl, fun A h => unique_ne_nil (sort_ne_nil S h),
    fun A A1 Vals h ha => addValues_ne_nil h ha,
    fun A B A1 r h hm => MergeValues_ne_nil h hm, ?_, fun A h => h.ne_nil, rfl⟩
  intro A B h
  rw [MergeRanges_values]
  exact h

/-- Witness of C13: the entry left by merging the pieces of `x` at offsets 0 and
4, which both hold the integer 0, started in `Construct` and holds a value. -/
theorem values_nonempty_witness :
    Constructed false libstdcxx mergedX0 ∧ mergedX0.Values ≠ [] :=
  have h : Constructed false libstdcxx mergedX0 :=
    @Constructed.mergeValues false libstdcxx (Construct 1 2 (Value.ofInt pieceX0 0)) mergedX0
      (Construct 1 3 (Value.ofInt pieceX4 0)) true
      (Constructed.construct 1 2 (Value.ofInt pieceX0 0)) (by decide)
  ⟨h, (values_nonempty false libstdcxx).2.2.2.2.2.1 mergedX0 h⟩

theorem uniqueFrom_chain (Kept : Value) (M : List Value) :
    List.Chain (fun a b => Value.eq a b = false) Kept (uniqueFrom Kept M) := by
  induction M generalizing Kept with
  | nil => exact List.Chain.nil
  | cons m M ih =>
    by_cases hk : Value.eq Kept m = true
    · simp only [uniqueFrom, hk, if_true]
      exact ih Kept
    · simp only [uniqueFrom, hk, Bool.false_eq_true, if_false]
      exact List.Chain.cons (by simpa using hk) (ih m)

theorem unique_chain (M : List Value) :
    List.Chain' (fun a b => Value.eq a b = false) (unique M) := by
  cases M with
  | nil => exact List.chain'_nil
  | cons m M => exact uniqueFrom_chain m M

theorem chain_head {m : Value} {L : List Value}
    (hc : List.Chain' (fun a b => Value.eq a b = false) (m :: L)) :
    ∀ l, L.head? = some l → Value.eq m l = false := by
  intro l hl
  cases L with
  | nil => simp at hl
  | cons x xs =>
    simp only [List.head?_cons, Option.some.injEq] at hl
    subst hl
    exact (List.chain'_cons.mp hc).1

theorem length_le_uniqueFrom (M : List Value) :
    ∀ (Kept : Value) (L : List Value), L.Sublist M →
      List.Chain' (fun a b => Value.eq a b = false) L →
      L.length ≤ (uniqueFrom Kept M).length + 1 ∧
      ((∀ l, L.head? = some l → Value.eq Kept l = false) →
        L.length ≤ (uniqueFrom Kept M).length) := by
  induction M with
  | nil =>
    intro Kept L hs _
    have : L = [] := List.sublist_nil.mp hs
    subst this
    simp [uniqueFrom]
  | cons m M ih =>
    intro Kept L hs hc
    by_cases hk : Value.eq Kept m = true
    · have hu : uniqueFrom Kept (m :: M) = uniqueFrom Kept M := by
        simp only [uniqueFrom, hk, if_true]
      rw [hu]
      cases hs with
      | cons _ h => exact ih Kept L h hc
      | cons₂ _ h =>
        rename_i L2
        have hhead : ∀ l, L2.head? = some l → Value.eq Kept l = false := by
          intro l hl
          have hml := chain_head hc l hl
          cases hkl : Value.eq Kept l with
          | false => rfl
          | true =>
            have hmk : Value.eq m Kept = true := by rw [Value.eq_swap]; exact hk
            have := Value.eq_chain hmk hkl
            rw [hml] at this
            exact Bool.noConfusion this
        have h1 := (ih Kept L2 h hc.tail).2 hhead
        refine ⟨by simp only [List.length_cons]; omega, fun hh => ?_⟩
        have := hh m rfl
        rw [hk] at this
        exact Bool.noConfusion this
    · have hu : uniqueFrom Kept (m :: M) = m :: uniqueFrom m M := by
        simp only [uniqueFrom, hk, Bool.false_eq_true, if_false]
      rw [hu]
      cases hs with
      | cons _ h =>
        have h1 := (ih m L h hc).1
        simp only [List.length_cons]
        exact ⟨by omega, fun _ => h1⟩
      | cons₂ _ h =>
        rename_i L2
        have h1 := (ih m L2 h hc.tail).2 (chain_head hc)
        simp only [List.length_cons]
        exact ⟨by omega, fun _ => by omega⟩

theorem length_le_unique {L M : List Value} (hs : L.Sublist M)
    (hc : List.Chain' (fun a b => Value.eq a b = false) L) :
    L.length ≤ (unique M).length := by
  cases M with
  | nil =>
    have : L = [] := List.sublist_nil.mp hs
    subst this
    simp [unique]
  | cons m M =>
    cases hs with
    | cons _ h =>
      have h1 := (length_le_uniqueFrom M m L h hc).1
      simpa [unique] using h1
    | cons₂ _ h =>
      rename_i L2
      have h1 := (length_le_uniqueFrom M m L2 h hc.tail).2 (chain_head hc)
      simpa [unique] using h1

theorem sublist_of_strict (M : List Value) :
    ∀ L : List Value, (L.Pairwise fun a b => Value.offset a < Value.offset b) →
      (M.Pairwise fun a b => Value.offset a ≤ Value.offset b) →
      (∀ V ∈ L, V ∈ M) → L.Sublist M := by
  induction M with
  | nil =>
    intro L _ _ hsub
    cases L with
    | nil => exact List.Sublist.slnil
    | cons l L => exact absurd (hsub l (List.mem_cons_self _ _)) (List.not_mem_nil _)
  | cons m M ih =>
    intro L hL hM hsub
    cases L with
    | nil => exact List.nil_sublist _
    | cons l L =>
      obtain ⟨hl, hL2⟩ := List.pairwise_cons.mp hL
      obtain ⟨hm, hM2⟩ := List.pairwise_cons.mp hM
      by_cases hlm : l = m
      · subst hlm
        refine (ih L hL2 hM2 fun V hV => ?_).cons₂ l
        rcases List.mem_cons.mp (hsub V (List.mem_cons_of_mem _ hV)) with h | h
        · have := hl V hV
          rw [h] at this
          exact absurd this (Nat.lt_irrefl _)
        · exact h
      · have hlM : l ∈ M := by
          rcases List.mem_cons.mp (hsub l (List.mem_cons_self _ _)) with h | h
          · exact absurd h hlm
          · exact h
        refine (ih (l :: L) hL hM2 fun V hV => ?_).cons m
        rcases List.mem_cons.mp hV with h | h
        · rw [h]; exact hlM
        · rcases List.mem_cons.mp (hsub V hV) with h2 | h2
          · have h3 := hl V h
            have h4 := hm l hlM
            rw [h2] at h3
            omega
          · exact h2

theorem length_le_unique_sort_append (S : StdSort) {L : List Value}
    (hs : L.Pairwise (fun a b => Value.offset a ≤ Value.offset b))
    (hn : L.Pairwise (fun a b => Value.offset a ≠ Value.offset b))
    (hc : List.Chain' (fun a b => Value.eq a b = false) L) (Vals : List Value) :
    L.length ≤ (unique (S.sort (L ++ Vals))).length :=
  length_le_unique
    (sublist_of_strict _ L (strict_of_sorted_of_ne hs hn) (sort_sorted S _)
      (fun _ hV => (sort_perm S _).mem_iff.mpr (List.mem_append_left _ hV))) hc

theorem Reachable.chain {NDEBUG : Bool} {S : StdSort} {A : DebugLocEntry} (h : Reachable NDEBUG S A) :
    List.Chain' (fun a b => Value.eq a b = false) A.Values := by
  induction h with
  | default => exact List.chain'_nil
  | construct B E Val => exact List.chain'_singleton _
  | @sortUniqueValues A _ _ => exact unique_chain _
  | addValues Vals _ ha _ =>
    rw [(addValues_some_eq ha).1]
    exact unique_chain _
  | @mergeValues A B A1 r _ _ hm ihA _ =>
    cases r with
    | false => rw [MergeValues_some_false hm]; exact ihA
    | true =>
      obtain ⟨_, A2, ha, rfl⟩ := MergeValues_some_true hm
      rw [(addValues_some_eq ha).1]
      exact unique_chain _
  | @mergeRanges A B _ _ ihA _ =>
    rw [MergeRanges_values]
    exact ihA

/-- C14 as stated fails: with the `std::sort` of libstdc++, the entry obtained
from `Construct` and one `addValues` that holds 17 values for offset 0 of `x`
is left with 16 values by a further `addValues` of no value: the sort moves
the two values holding 1 next to each other and one of them is dropped. -/
theorem values_shrink_on_tied_offsets :
    addValues false libstdcxx (Construct 1 2 (Value.ofInt pieceX0 0))
        (valuesAtX0 [1, 2, 3, 4, 5, 6, 7, 8, 1, 10, 11, 12, 13, 14, 15, 16]) = some added17 ∧
    addValues false libstdcxx added17 [] = some shrunk16 ∧
    added17.Values.length = 17 ∧ shrunk16.Values.length = 16 ∧
    ¬ ∀ (NDEBUG : Bool) (S : StdSort) (A : DebugLocEntry), Reachable NDEBUG S A →
      ∀ (Vals : List Value) (A1 : DebugLocEntry), addValues NDEBUG S A Vals = some A1 →
        A.Values.length ≤ A1.Values.length := by
  have h1 : addValues false libstdcxx (Construct 1 2 (Value.ofInt pieceX0 0))
      (valuesAtX0 [1, 2, 3, 4, 5, 6, 7, 8, 1, 10, 11, 12, 13, 14, 15, 16]) = some added17 := by
    decide
  have h2 : addValues false libstdcxx added17 [] = some shrunk16 := by decide
  refine ⟨h1, h2, rfl, rfl, fun h => ?_⟩
  have h3 := h false libstdcxx added17
    (Reachable.addValues _ (Reachable.construct 1 2 (Value.ofInt pieceX0 0)) h1) [] shrunk16 h2
  revert h3
  decide

/-- C14, amended: for every entry obtained from a constructor through the public
member functions and holding no two values at the same piece offset, a further
`addValues` that returns and a further `MergeValues` that returns leave at
least as many values in the entry as it held before the call, whatever the
`std::sort`; `MergeRanges` leaves the values of every entry as they are. -/
theorem values_never_shrink_of_distinct_offsets (NDEBUG : Bool) (S : StdSort)
    (A : DebugLocEntry) (hA : Reachable NDEBUG S A)
    (hoff : A.Values.Pairwise fun a b =>
      DIVariable.getPieceOffset a.Variable ≠ DIVariable.getPieceOffset b.Variable) :
    (∀ (Vals : List Value) (A1 : DebugLocEntry), addValues NDEBUG S A Vals = some A1 →
      A.Values.length ≤ A1.Values.length) ∧
    (∀ (B A1 : DebugLocEntry) (r : Bool), MergeValues NDEBUG S A B = some (r, A1) →
      A.Values.length ≤ A1.Values.length) ∧
    (∀ B : DebugLocEntry, (MergeRanges A B).2.Values = A.Values) := by
  refine ⟨?_, ?_, ?_⟩
  · intro Vals A1 ha
    rw [(addValues_some_eq ha).1]
    exact length_le_unique_sort_append S hA.sorted hoff hA.chain Vals
  · intro B A1 r hm
    cases r with
    | false => rw [MergeValues_some_false hm]
    | true =>
      obtain ⟨_, A2, ha, rfl⟩ := MergeValues_some_true hm
      rw [(addValues_some_eq ha).1]
      exact length_le_unique_sort_append S hA.sorted hoff hA.chain B.Values
  · intro B
    exact MergeRanges_values A B

/-- Witness of C14: adding to the entry of the piece of `x` at offset 4 a value
for offset 0 that equals the one it holds leaves one value, as many as before. -/
theorem values_never_shrink_of_distinct_offsets_witness :
    Reachable false libstdcxx (Construct 1 2 (Value.ofInt pieceX4 0)) ∧
    addValues false libstdcxx (Construct 1 2 (Value.ofInt pieceX4 0)) [Value.ofInt pieceX0 0] =
      some addedX0 ∧
    (Construct 1 2 (Value.ofInt pieceX4 0)).Values.length ≤ addedX0.Values.length :=
  ⟨Reachable.construct 1 2 _, by decide,
    (values_never_shrink_of_distinct_offsets false libstdcxx
      (Construct 1 2 (Value.ofInt pieceX4 0)) (Reachable.construct 1 2 _) (by decide)).1
      [Value.ofInt pieceX0 0] addedX0 (by decide)⟩

/-! ## Which values the deduplication keeps -/

theorem uniqueFrom_first (P : List Value) :
    ∀ (Kept W : Value) (R : List Value), Value.eq Kept W = false →
      (∀ X ∈ P, Value.eq X W = false) →
      uniqueFrom Kept (P ++ W :: R) = uniqueFrom Kept P ++ W :: uniqueFrom W R := by
  induction P with
  | nil =>
    intro Kept W R hk _
    simp only [List.nil_append, uniqueFrom, hk, Bool.false_eq_true, if_false]
  | cons p P ih =>
    intro Kept W R hk hP
    have hP2 : ∀ X ∈ P, Value.eq X W = false := fun X hX => hP X (List.mem_cons_of_mem _ hX)
    by_cases hp : Value.eq Kept p = true
    · simp only [List.cons_append, uniqueFrom, hp, if_true]
      exact ih Kept W R hk hP2
    · simp only [List.cons_append, uniqueFrom, hp, Bool.false_eq_true, if_false]
      exact congrArg (p :: ·) (ih p W R (hP p (List.mem_cons_self _ _)) hP2)

theorem unique_first (P : List Value) (W : Value) (R : List Value)
    (hP : ∀ X ∈ P, Value.eq X W = false) :
    unique (P ++ W :: R) = unique P ++ W :: uniqueFrom W R := by
  cases P with
  | nil => rfl
  | cons p P =>
    simp only [List.cons_append, unique]
    exact congrArg (p :: ·) (uniqueFrom_first P p W R (hP p (List.mem_cons_self _ _))
      (fun X hX => hP X (List.mem_cons_of_mem _ hX)))

theorem exists_eq_in_uniqueFrom (M : List Value) :
    ∀ (Kept V : Value), V ∈ M →
      Value.eq Kept V = true ∨ ∃ W ∈ uniqueFrom Kept M, Value.eq W V = true := by
  induction M with
  | nil => intro _ V hV; simp at hV
  | cons m M ih =>
    intro Kept V hV
    by_cases hk : Value.eq Kept m = true
    · simp only [uniqueFrom, hk, if_true]
      rcases List.mem_cons.mp hV with rfl | hV
      · exact Or.inl hk
      · exact ih Kept V hV
    · simp only [uniqueFrom, hk, Bool.false_eq_true, if_false]
      right
      rcases List.mem_cons.mp hV with rfl | hV
      · exact ⟨V, List.mem_cons_self _ _, Value.eq_self V⟩
      · rcases ih m V hV with h | ⟨W, hW, hWV⟩
        · exact ⟨m, List.mem_cons_self _ _, h⟩
        · exact ⟨W, List.mem_cons_of_mem _ hW, hWV⟩

theorem exists_eq_in_unique (M : List Value) (V : Value) (hV : V ∈ M) :
    ∃ W ∈ unique M, Value.eq W V = true := by
  cases M with
  | nil => simp at hV
  | cons m M =>
    rcases List.mem_cons.mp hV with rfl | hV
    · exact ⟨V, List.mem_cons_self _ _, Value.eq_self V⟩
    · rcases exists_eq_in_uniqueFrom M m V hV with h | ⟨W, hW, hWV⟩
      · exact ⟨m, List.mem_cons_self _ _, h⟩
      · exact ⟨W, List.mem_cons_of_mem _ hW, hWV⟩

/-- C17: the values left by `sortUniqueValues` are a sub-sequence of the input
sorted by offset, and each of them is a value of the input; for a value `v`,
the first element `W` of the sorted input that equals `v` is kept, at its
place: what is left is the deduplicated part before `W`, then `W`, then what
the loop keeps of the part after `W`; and every value of the input is equal to
a value that is left. -/
theorem sortUniqueValues_keeps_first (S : StdSort) (A : DebugLocEntry) :
    (sortUniqueValues S A).Values.Sublist (S.sort A.Values) ∧
    (∀ V ∈ (sortUniqueValues S A).Values, V ∈ A.Values) ∧
    (∀ (v W : Value) (P R : List Value), S.sort A.Values = P ++ W :: R →
      Value.eq W v = true → (∀ X ∈ P, Value.eq X v = false) →
      (sortUniqueValues S A).Values = unique P ++ W :: uniqueFrom W R) ∧
    (∀ V ∈ A.Values, ∃ W ∈ (sortUniqueValues S A).Values, Value.eq W V = true) := by
  refine ⟨unique_sublist _, fun V hV => mem_of_mem_unique_sort hV, ?_, ?_⟩
  · intro v W P R hs hW hP
    simp only [sortUniqueValues, hs]
    apply unique_first
    intro X hX
    cases hXW : Value.eq X W with
    | false => rfl
    | true =>
      have := Value.eq_chain hXW hW
      rw [hP X hX] at this
      exact Bool.noConfusion this
  · intro V hV
    exact exists_eq_in_unique (S.sort A.Values) V ((sort_perm S A.Values).mem_iff.mpr hV)

/-- Witness of C17: of the values 7 at offset 4, then 5 at offset 8, then 7 at
offset 0, the one at offset 0 is the first that equals 7 once the list is
sorted, and it is the one that is kept. -/
theorem sortUniqueValues_keeps_first_witness :
    (sortUniqueValues libstdcxx mixed3).Values =
      [Value.ofInt pieceX0 7, Value.ofInt pieceX8 5] :=
  (sortUniqueValues_keeps_first libstdcxx mixed3).2.2.1
    (Value.ofInt pieceX4 7) (Value.ofInt pieceX0 7) []
    [Value.ofInt pieceX4 7, Value.ofInt pieceX8 5] (by decide) (by decide)
    (by intro X hX; simp at hX)

/-! ## `MergeRanges`: the variable, and the order of the merges -/

/-- C16, at two adjacent entries holding the integer 0, the first for the piece
of `x` at offset 0 and the second for the unsplit variable `y`, and at two
adjacent entries for the pieces of `x` at offsets 0 and 4: `MergeRanges`
returns true and extends the first entry over the range of the second,
although the values of the two entries belong to different variables. -/
theorem MergeRanges_merges_different_variables :
    MergeRanges (Construct 1 2 (Value.ofInt pieceX0 0)) (Construct 2 3 (Value.ofInt wholeY 0)) =
      (true, { Begin := 1, End := 3, Values := [Value.ofInt pieceX0 0] }) ∧
    (Value.ofInt pieceX0 0).Variable ≠ (Value.ofInt wholeY 0).Variable ∧
    DIVariable.getName (Value.ofInt pieceX0 0).Variable ≠
      DIVariable.getName (Value.ofInt wholeY 0).Variable ∧
    MergeRanges (Construct 1 2 (Value.ofInt pieceX0 0)) (Construct 2 3 (Value.ofInt pieceX4 0)) =
      (true, { Begin := 1, End := 3, Values := [Value.ofInt pieceX0 0] }) ∧
    (Value.ofInt pieceX0 0).Variable ≠ (Value.ofInt pieceX4 0).Variable := by
  decide

theorem valuesEq_chain (Us : List Value) :
    ∀ Vs Ws : List Value, valuesEq Us Vs = true → valuesEq Vs Ws = true →
      valuesEq Us Ws = true := by
  induction Us with
  | nil =>
    intro Vs Ws h1 h2
    cases Vs with
    | nil => exact h2
    | cons V Vs => simp [valuesEq] at h1
  | cons U Us ih =>
    intro Vs Ws h1 h2
    cases Vs with
    | nil => simp [valuesEq] at h1
    | cons V Vs =>
      cases Ws with
      | nil => simp [valuesEq] at h2
      | cons W Ws =>
        simp only [valuesEq, Bool.and_eq_true] at h1 h2 ⊢
        exact ⟨Value.eq_chain h1.1 h2.1, ih Vs Ws h1.2 h2.2⟩

theorem MergeRanges_fst_iff (A B : DebugLocEntry) :
    (MergeRanges A B).1 = true ↔ A.End = B.Begin ∧ valuesEq A.Values B.Values = true := by
  unfold MergeRanges
  split
  · rename_i h; simpa using h
  · rename_i h; simpa using h

theorem MergeRanges_of_cond (A B : DebugLocEntry) (h1 : A.End = B.Begin)
    (h2 : valuesEq A.Values B.Values = true) :
    MergeRanges A B = (true, { A with End := B.End }) := by
  simp only [MergeRanges, h1, h2, and_self, if_true]

/-- C19: when `MergeRanges(A, B)` and `MergeRanges(B, C)` both return true on
the entries as they are, merging `A` with `B` and then with `C` returns true,
merging `B` with `C` and then `A` with the result returns true, and both leave
the same entry: the begin of `A`, the end of `C`, the values of `A`. -/
theorem MergeRanges_associative (A B C : DebugLocEntry)
    (hAB : (MergeRanges A B).1 = true) (hBC : (MergeRanges B C).1 = true) :
    (MergeRanges (MergeRanges A B).2 C).1 = true ∧
    (MergeRanges A (MergeRanges B C).2).1 = true ∧
    (MergeRanges (MergeRanges A B).2 C).2 = (MergeRanges A (MergeRanges B C).2).2 ∧
    (MergeRanges (MergeRanges A B).2 C).2 =
      { Begin := A.Begin, End := C.End, Values := A.Values } := by
  obtain ⟨e1, v1⟩ := (MergeRanges_fst_iff A B).mp hAB
  obtain ⟨e2, v2⟩ := (MergeRanges_fst_iff B C).mp hBC
  have hAB2 := MergeRanges_of_cond A B e1 v1
  have hBC2 := MergeRanges_of_cond B C e2 v2
  have h1 : MergeRanges { A with End := B.End } C =
      (true, { Begin := A.Begin, End := C.End, Values := A.Values }) :=
    MergeRanges_of_cond { A with End := B.End } C e2 (valuesEq_chain _ _ _ v1 v2)
  have h2 : MergeRanges A { B with End := C.End } =
      (true, { Begin := A.Begin, End := C.End, Values := A.Values }) :=
    MergeRanges_of_cond A { B with End := C.End } e1 v1
  rw [hAB2, hBC2]
  simp only [h1, h2, and_self]

/-- Witness of C19: three adjacent entries holding the same value are merged
into one range, in either order. -/
theorem MergeRanges_associative_witness :
    (MergeRanges (MergeRanges (Construct 1 2 (Value.ofInt pieceX0 7))
      (Construct 2 3 (Value.ofInt pieceX0 7))).2 (Construct 3 4 (Value.ofInt pieceX0 7))).2 =
      { Begin := 1, End := 4, Values := [Value.ofInt pieceX0 7] } :=
  (MergeRanges_associative (Construct 1 2 (Value.ofInt pieceX0 7))
    (Construct 2 3 (Value.ofInt pieceX0 7)) (Construct 3 4 (Value.ofInt pieceX0 7))
    (by decide) (by decide)).2.2.2

end DebugLocEntry

end llvm
